import Mathlib

/-!
# Organizations service of go-github (`github/orgs.go`)

A shallow embedding of `OrganizationsService.List`, `Get` and `Edit`, of the
`Organization` and `Plan` records with their JSON field tags, and of the library
routines the file calls (`fmt.Sprintf`, `strconv.Itoa`, `url.Values.Encode`).

Conventions of the embedding:

* a Go `string` is a Lean `String`;
* a Go pointer `*T` is an `Option T` (`none` is `nil`);
* a Go slice `[]T` is an `Option (List T)` (`none` is the nil slice);
* a Go `(*T, error)` result is a pair of options, because the code only tests the error;
* the `*Client` collaborator is a record of functions threaded through an explicit
  state `σ`; a call that writes through a pointer returns the new pointee;
* JSON text is taken as already parsed: `encoding/json` is modelled on JSON values;
* `time.Time` and its JSON methods are parameters of the coding functions.
-/

namespace github

/-! ## Library routines used by `orgs.go` -/

/-- Lower bound of a Go `int` (64-bit platforms). -/
def minInt : Int := -9223372036854775808

/-- Upper bound of a Go `int` (64-bit platforms). -/
def maxInt : Int := 9223372036854775807

/-- A Go `int`. -/
abbrev GoInt : Type := { n : Int // minInt ≤ n ∧ n ≤ maxInt }

/-- A Go slice `[]T`; `none` is the nil slice. -/
abbrev Slice (α : Type) : Type := Option (List α)

/-- Interpretation loop of `fmt.Sprintf` for the one verb this file uses: `%v` prints
the next operand, which for a string operand is the string itself; a `%v` without an
operand prints `%!v(MISSING)`; every other character is copied. The formats of
`orgs.go` hold one `%v` each and are given one string operand, so no other verb, flag or
surplus operand has to be interpreted. -/
def Sprintf.go : List Char → List String → List Char
  | [], _ => []
  | [c], _ => [c]
  | c :: d :: rest, operands =>
    if c = '%' ∧ d = 'v' then
      match operands with
      | a :: more => a.data ++ Sprintf.go rest more
      | [] => "%!v(MISSING)".data ++ Sprintf.go rest []
    else c :: Sprintf.go (d :: rest) operands

/-- The `fmt.Sprintf` of Go, for `%v` verbs and string operands. -/
def Sprintf (format : String) (operands : List String) : String :=
  ⟨Sprintf.go format.data operands⟩

/-- The `strconv.Itoa` of Go: the base-10 text of an integer, with a leading `-` when
negative. -/
def Itoa (i : Int) : String :=
  match i with
  | Int.ofNat m => Nat.repr m
  | Int.negSucc m => "-" ++ Nat.repr (m + 1)

/-- The `shouldEscape` of `net/url` in query-component mode, on one byte: letters,
digits and `- _ . ~` are kept. -/
def shouldEscape (b : Nat) : Bool :=
  !((65 ≤ b && b ≤ 90) || (97 ≤ b && b ≤ 122) || (48 ≤ b && b ≤ 57)
    || b = 45 || b = 95 || b = 46 || b = 126)

/-- Upper-case hexadecimal digit, as in `"0123456789ABCDEF"[n]`. -/
def upperhex (n : Nat) : Char :=
  "0123456789ABCDEF".data.getD n '0'

/-- Escaping of one byte by `url.QueryEscape`: a space becomes `+`, a byte that must be
escaped becomes `%XX`, any other byte is copied. -/
def escapeByte (b : Nat) : List Char :=
  if b = 32 then ['+']
  else if shouldEscape b then ['%', upperhex (b / 16), upperhex (b % 16)]
  else [Char.ofNat b]

/-- The UTF-8 bytes of a string. -/
def utf8Bytes (s : String) : List Nat :=
  s.data.flatMap (fun c => (String.utf8EncodeChar c).map UInt8.toNat)

/-- The `url.QueryEscape` of Go. -/
def QueryEscape (s : String) : String :=
  ⟨(utf8Bytes s).flatMap escapeByte⟩

/-- A `url.Values` map literal: keys with their value lists (keys are distinct). -/
abbrev Values : Type := List (String × List String)

/-- The `url.Values.Encode` of Go: keys in sorted order, one `key=value` pair per value,
both sides query-escaped, pairs joined by `&`. -/
def Values.Encode (v : Values) : String :=
  let keys := (v.map Prod.fst).insertionSort (fun a b => a ≤ b)
  let pairs := keys.flatMap (fun k =>
    ((v.lookup k).getD []).map (fun val => QueryEscape k ++ "=" ++ QueryEscape val))
  "&".intercalate pairs

/-- The characters of a decimal numeral with its sign. -/
def decimalChars : List Char := ['0', '1', '2', '3', '4', '5', '6', '7', '8', '9', '-']

/-! ## Data model of `orgs.go` -/

/-- Plan represents the payment plan for an account (`type Plan struct`): every field is
a pointer, so every field is optional. -/
structure Plan where
  Name : Option String := none
  Space : Option GoInt := none
  Collaborators : Option GoInt := none
  PrivateRepos : Option GoInt := none
deriving DecidableEq

/-- Organization represents a GitHub organization account (`type Organization struct`).
The type `Time` stands for `time.Time`, which `orgs.go` only stores. -/
structure Organization (Time : Type) where
  Login : Option String := none
  ID : Option GoInt := none
  URL : Option String := none
  AvatarURL : Option String := none
  Name : Option String := none
  Blog : Option String := none
  Location : Option String := none
  Email : Option String := none
  PublicRepos : Option GoInt := none
  PublicGists : Option GoInt := none
  Followers : Option GoInt := none
  Following : Option GoInt := none
  CreatedAt : Option Time := none
  UpdatedAt : Option Time := none
  TotalPrivateRepos : Option GoInt := none
  OwnedPrivateRepos : Option GoInt := none
  PrivateGists : Option GoInt := none
  DiskUsage : Option GoInt := none
  Collaborators : Option GoInt := none
  BillingEmail : Option String := none
  Plan : Option Plan := none
deriving DecidableEq

/-- The pointee of `new(Organization)`: the zero value, every pointer field nil. -/
def Organization.zero {Time : Type} : Organization Time := {}

/-- The pointee of `new(Plan)`. -/
def Plan.zero : Plan := {}

/-- Modelled from the spec: `ListOptions` is declared outside `orgs.go`; it is the
pagination option, an integer page index. `List` passes its field `Page` to
`strconv.Itoa`, so the field is a Go `int`. -/
structure ListOptions where
  Page : GoInt
deriving DecidableEq

/-- The `body interface{}` argument of `NewRequest` as `orgs.go` supplies it: the nil
interface (`List`, `Get`) or a `*Organization` (`Edit`), which may itself be nil. -/
inductive Body (Time : Type) where
  | nil : Body Time
  | organization (org : Option (Organization Time)) : Body Time
deriving DecidableEq

/-- The collaborator `*Client`. Its methods `NewRequest` and `Do` are defined outside
`orgs.go` and are taken as parameters. `σ` is the state they act on (the client and the
network), `Request`, `Response` and `Error` are the pointees of `*http.Request` and
`*Response` and the non-nil `error` values. `Do` writes through its second argument;
it is given the pointee before the call and returns the pointee after it, once for each
of the two dynamic types `orgs.go` passes (`*[]Organization` and `*Organization`). -/
structure Client (σ Time Request Response Error : Type) where
  NewRequest : String → String → Body Time → σ → (Option Request × Option Error) × σ
  DoOrganizations : Option Request → Slice (Organization Time) → σ →
    (Slice (Organization Time) × Option Response × Option Error) × σ
  DoOrganization : Option Request → Organization Time → σ →
    (Organization Time × Option Response × Option Error) × σ

/-- OrganizationsService provides access to the organization related functions
(`type OrganizationsService struct`). -/
structure OrganizationsService (σ Time Request Response Error : Type) where
  client : Client σ Time Request Response Error

section Operations

variable {σ Time Request Response Error : Type}

/-- List the organizations for a user (`func (s *OrganizationsService) List`). -/
def OrganizationsService.List (s : OrganizationsService σ Time Request Response Error)
    (user : String) (opt : Option ListOptions) (w : σ) :
    (Slice (Organization Time) × Option Response × Option Error) × σ :=
  let u := if user ≠ "" then Sprintf "users/%v/orgs" [user] else "user/orgs"
  let u := match opt with
    | some opt =>
      let params : Values := [("page", [Itoa opt.Page.val])]
      u ++ ("?" ++ params.Encode)
    | none => u
  match s.client.NewRequest "GET" u Body.nil w with
  | ((_, some err), w) => ((none, none, some err), w)
  | ((req, none), w) =>
    let orgs : Slice (Organization Time) := none
    match s.client.DoOrganizations req orgs w with
    | ((orgs, resp, err), w) => ((orgs, resp, err), w)

/-- Get fetches an organization by name (`func (s *OrganizationsService) Get`). -/
def OrganizationsService.Get (s : OrganizationsService σ Time Request Response Error)
    (org : String) (w : σ) :
    (Option (Organization Time) × Option Response × Option Error) × σ :=
  let u := Sprintf "orgs/%v" [org]
  match s.client.NewRequest "GET" u Body.nil w with
  | ((_, some err), w) => ((none, none, some err), w)
  | ((req, none), w) =>
    let organization : Organization Time := Organization.zero
    match s.client.DoOrganization req organization w with
    | ((organization, resp, err), w) => ((some organization, resp, err), w)

/-- Edit an organization (`func (s *OrganizationsService) Edit`). -/
def OrganizationsService.Edit (s : OrganizationsService σ Time Request Response Error)
    (name : String) (org : Option (Organization Time)) (w : σ) :
    (Option (Organization Time) × Option Response × Option Error) × σ :=
  let u := Sprintf "orgs/%v" [name]
  match s.client.NewRequest "PATCH" u (Body.organization org) w with
  | ((_, some err), w) => ((none, none, some err), w)
  | ((req, none), w) =>
    let o : Organization Time := Organization.zero
    match s.client.DoOrganization req o w with
    | ((o, resp, err), w) => ((some o, resp, err), w)

/-- One call made on the collaborator, with its arguments. -/
inductive Call (Time Request : Type) where
  | NewRequest (method urlStr : String) (body : Body Time) : Call Time Request
  | DoOrganizations (req : Option Request) (v : Slice (Organization Time)) :
      Call Time Request
  | DoOrganization (req : Option Request) (v : Organization Time) : Call Time Request

/-- The collaborator `c`, recording every call made on it, in order. -/
def Client.traced (c : Client σ Time Request Response Error) :
    Client (σ × List (Call Time Request)) Time Request Response Error where
  NewRequest method urlStr body w :=
    let r := c.NewRequest method urlStr body w.1
    (r.1, (r.2, w.2 ++ [Call.NewRequest method urlStr body]))
  DoOrganizations req v w :=
    let r := c.DoOrganizations req v w.1
    (r.1, (r.2, w.2 ++ [Call.DoOrganizations req v]))
  DoOrganization req v w :=
    let r := c.DoOrganization req v w.1
    (r.1, (r.2, w.2 ++ [Call.DoOrganization req v]))

/-- Whether a call is a call of `NewRequest`. -/
def Call.isNewRequest : Call Time Request → Bool
  | Call.NewRequest _ _ _ => true
  | _ => false

/-- Whether a call is a call of `Do`. -/
def Call.isDo : Call Time Request → Bool
  | Call.NewRequest _ _ _ => false
  | _ => true

/-- Modelled from the spec: `Client.NewRequest` is defined outside `orgs.go`. This is a
test double of the collaborator for the local request-construction failure: `NewRequest`
returns no request and the error `err`; `Do` leaves its target as it is. -/
def refusingClient (Time Request Response : Type) {Error : Type} (err : Error) :
    Client Unit Time Request Response Error where
  NewRequest _ _ _ w := ((none, some err), w)
  DoOrganizations _ v w := ((v, none, none), w)
  DoOrganization _ v w := ((v, none, none), w)

end Operations

/-! ## JSON coding of `Organization` and `Plan` under their field tags

`encoding/json` is modelled on parsed JSON values. The rules are those of the package:
a struct is written field by field in declaration order under the tag name, and
`omitempty` drops a nil pointer; on reading, an object member is stored in the field
whose tag equals its key, or failing that matches it under case folding, unknown keys
are skipped, `null` sets a pointer to nil, any other value allocates the pointee when
the pointer is nil and then stores into it, a value of the wrong type is recorded as an
`UnmarshalTypeError` (the first one is kept) while decoding goes on, and an error
returned by an `UnmarshalJSON` method stops decoding. -/

/-- A parsed JSON value. A number literal in integer form (`-?[0-9]+`) is `int`; a
number literal with a fraction or an exponent is `number`. -/
inductive JSON where
  | null : JSON
  | bool (b : Bool) : JSON
  | int (n : Int) : JSON
  | number (literal : String) : JSON
  | str (s : String) : JSON
  | arr (elems : List JSON) : JSON
  | obj (members : List (String × JSON)) : JSON

/-- The `Value` text of an `UnmarshalTypeError` for a JSON value. -/
def JSON.describe : JSON → String
  | JSON.null => "null"
  | JSON.bool _ => "bool"
  | JSON.int _ => "number"
  | JSON.number _ => "number"
  | JSON.str _ => "string"
  | JSON.arr _ => "array"
  | JSON.obj _ => "object"

/-- The JSON methods of `time.Time`, which belong to the `time` package and are taken as
parameters: `MarshalJSON` returns a JSON value or fails; `UnmarshalJSON` has a pointer
receiver, so it is given the receiver's pointee and returns the pointee after the call
with the error, if any; `zero` is the pointee of `new(time.Time)`. -/
structure TimeJSON (Time E : Type) where
  zero : Time
  MarshalJSON : Time → Except E JSON
  UnmarshalJSON : JSON → Time → Time × Option E

/-- The errors of `json.Unmarshal`: a JSON value that does not fit the Go type, or the
error of an `UnmarshalJSON` method. -/
inductive UnmarshalError (E : Type) where
  | UnmarshalTypeError (value : String) (type : String) : UnmarshalError E
  | unmarshaler (e : E) : UnmarshalError E
deriving DecidableEq

/-- The error state of a decoder: `savedError` is the first type error met so far,
`failed` is the error that stopped decoding. -/
structure DecodeState (E : Type) where
  savedError : Option (UnmarshalError E) := none
  failed : Option (UnmarshalError E) := none
deriving DecidableEq

/-- Keep the first error (`saveError`). -/
def DecodeState.saveError {E : Type} (st : DecodeState E) (e : UnmarshalError E) :
    DecodeState E :=
  match st.savedError with
  | none => { st with savedError := some e }
  | some _ => st

/-- The error `Unmarshal` returns at the end. -/
def DecodeState.err {E : Type} (st : DecodeState E) : Option (UnmarshalError E) :=
  match st.failed with
  | some e => some e
  | none => st.savedError

/-- The types of the fields of `Organization`, behind the pointer. -/
inductive GoType where
  | string | int | time | plan
deriving DecidableEq

/-- The values of a field type. -/
def GoType.denote (Time : Type) : GoType → Type
  | GoType.string => String
  | GoType.int => GoInt
  | GoType.time => Time
  | GoType.plan => github.Plan

/-- The fields of `Organization`, in declaration order. -/
inductive OrgField where
  | Login | ID | URL | AvatarURL | Name | Blog | Location | Email | PublicRepos
  | PublicGists | Followers | Following | CreatedAt | UpdatedAt | TotalPrivateRepos
  | OwnedPrivateRepos | PrivateGists | DiskUsage | Collaborators | BillingEmail | Plan
deriving DecidableEq

/-- All fields of `Organization`, in declaration order. -/
def OrgField.all : List OrgField :=
  [OrgField.Login, OrgField.ID, OrgField.URL, OrgField.AvatarURL, OrgField.Name,
   OrgField.Blog, OrgField.Location, OrgField.Email, OrgField.PublicRepos,
   OrgField.PublicGists, OrgField.Followers, OrgField.Following, OrgField.CreatedAt,
   OrgField.UpdatedAt, OrgField.TotalPrivateRepos, OrgField.OwnedPrivateRepos,
   OrgField.PrivateGists, OrgField.DiskUsage, OrgField.Collaborators,
   OrgField.BillingEmail, OrgField.Plan]

/-- The JSON name in the tag of each field of `Organization`. -/
def OrgField.tag : OrgField → String
  | OrgField.Login => "login"
  | OrgField.ID => "id"
  | OrgField.URL => "url"
  | OrgField.AvatarURL => "avatar_url"
  | OrgField.Name => "name"
  | OrgField.Blog => "blog"
  | OrgField.Location => "location"
  | OrgField.Email => "email"
  | OrgField.PublicRepos => "public_repos"
  | OrgField.PublicGists => "public_gists"
  | OrgField.Followers => "followers"
  | OrgField.Following => "following"
  | OrgField.CreatedAt => "created_at"
  | OrgField.UpdatedAt => "updated_at"
  | OrgField.TotalPrivateRepos => "total_private_repos"
  | OrgField.OwnedPrivateRepos => "owned_private_repos"
  | OrgField.PrivateGists => "private_gists"
  | OrgField.DiskUsage => "disk_usage"
  | OrgField.Collaborators => "collaborators"
  | OrgField.BillingEmail => "billing_email"
  | OrgField.Plan => "plan"

/-- The type of each field of `Organization`, behind the pointer. -/
def OrgField.type : OrgField → GoType
  | OrgField.Login => GoType.string
  | OrgField.ID => GoType.int
  | OrgField.URL => GoType.string
  | OrgField.AvatarURL => GoType.string
  | OrgField.Name => GoType.string
  | OrgField.Blog => GoType.string
  | OrgField.Location => GoType.string
  | OrgField.Email => GoType.string
  | OrgField.PublicRepos => GoType.int
  | OrgField.PublicGists => GoType.int
  | OrgField.Followers => GoType.int
  | OrgField.Following => GoType.int
  | OrgField.CreatedAt => GoType.time
  | OrgField.UpdatedAt => GoType.time
  | OrgField.TotalPrivateRepos => GoType.int
  | OrgField.OwnedPrivateRepos => GoType.int
  | OrgField.PrivateGists => GoType.int
  | OrgField.DiskUsage => GoType.int
  | OrgField.Collaborators => GoType.int
  | OrgField.BillingEmail => GoType.string
  | OrgField.Plan => GoType.plan

/-- Read a field of an `Organization` (the pointer stored in it). -/
def Organization.get {Time : Type} (o : Organization Time) :
    (f : OrgField) → Option (f.type.denote Time)
  | OrgField.Login => o.Login
  | OrgField.ID => o.ID
  | OrgField.URL => o.URL
  | OrgField.AvatarURL => o.AvatarURL
  | OrgField.Name => o.Name
  | OrgField.Blog => o.Blog
  | OrgField.Location => o.Location
  | OrgField.Email => o.Email
  | OrgField.PublicRepos => o.PublicRepos
  | OrgField.PublicGists => o.PublicGists
  | OrgField.Followers => o.Followers
  | OrgField.Following => o.Following
  | OrgField.CreatedAt => o.CreatedAt
  | OrgField.UpdatedAt => o.UpdatedAt
  | OrgField.TotalPrivateRepos => o.TotalPrivateRepos
  | OrgField.OwnedPrivateRepos => o.OwnedPrivateRepos
  | OrgField.PrivateGists => o.PrivateGists
  | OrgField.DiskUsage => o.DiskUsage
  | OrgField.Collaborators => o.Collaborators
  | OrgField.BillingEmail => o.BillingEmail
  | OrgField.Plan => o.Plan

/-- Store a pointer in a field of an `Organization`. -/
def Organization.set {Time : Type} (o : Organization Time) :
    (f : OrgField) → Option (f.type.denote Time) → Organization Time
  | OrgField.Login, x => { o with Login := x }
  | OrgField.ID, x => { o with ID := x }
  | OrgField.URL, x => { o with URL := x }
  | OrgField.AvatarURL, x => { o with AvatarURL := x }
  | OrgField.Name, x => { o with Name := x }
  | OrgField.Blog, x => { o with Blog := x }
  | OrgField.Location, x => { o with Location := x }
  | OrgField.Email, x => { o with Email := x }
  | OrgField.PublicRepos, x => { o with PublicRepos := x }
  | OrgField.PublicGists, x => { o with PublicGists := x }
  | OrgField.Followers, x => { o with Followers := x }
  | OrgField.Following, x => { o with Following := x }
  | OrgField.CreatedAt, x => { o with CreatedAt := x }
  | OrgField.UpdatedAt, x => { o with UpdatedAt := x }
  | OrgField.TotalPrivateRepos, x => { o with TotalPrivateRepos := x }
  | OrgField.OwnedPrivateRepos, x => { o with OwnedPrivateRepos := x }
  | OrgField.PrivateGists, x => { o with PrivateGists := x }
  | OrgField.DiskUsage, x => { o with DiskUsage := x }
  | OrgField.Collaborators, x => { o with Collaborators := x }
  | OrgField.BillingEmail, x => { o with BillingEmail := x }
  | OrgField.Plan, x => { o with Plan := x }

/-- The fields of `Plan`, in declaration order. -/
inductive PlanField where
  | Name | Space | Collaborators | PrivateRepos
deriving DecidableEq

/-- All fields of `Plan`, in declaration order. -/
def PlanField.all : List PlanField :=
  [PlanField.Name, PlanField.Space, PlanField.Collaborators, PlanField.PrivateRepos]

/-- The JSON name in the tag of each field of `Plan`. -/
def PlanField.tag : PlanField → String
  | PlanField.Name => "name"
  | PlanField.Space => "space"
  | PlanField.Collaborators => "collaborators"
  | PlanField.PrivateRepos => "private_repos"

/-- Case folding of one rune, as far as it can reach an ASCII letter: `A`..`Z` fold to
`a`..`z`, the Kelvin sign folds to `k` and the long s to `s`; the tags of this file are
ASCII, so no other folding can make a key match one of them. -/
def foldRune (c : Char) : Char :=
  if 'A' ≤ c ∧ c ≤ 'Z' then Char.ofNat (c.toNat + 32)
  else if c = Char.ofNat 0x212A then 'k'
  else if c = Char.ofNat 0x017F then 's'
  else c

/-- Whether a key matches a tag under case folding (`EqualFold`), for an ASCII tag. -/
def equalFold (tag key : String) : Bool :=
  key.data.map foldRune = tag.data.map foldRune

/-- The field an object key is stored in: the first field whose tag equals the key,
else the first field whose tag matches it under case folding. -/
def OrgField.byKey (key : String) : Option OrgField :=
  match OrgField.all.find? (fun f => f.tag = key) with
  | some f => some f
  | none => OrgField.all.find? (fun f => equalFold f.tag key)

/-- The field of `Plan` an object key is stored in. -/
def PlanField.byKey (key : String) : Option PlanField :=
  match PlanField.all.find? (fun f => f.tag = key) with
  | some f => some f
  | none => PlanField.all.find? (fun f => equalFold f.tag key)

section Coding

variable {Time E : Type}

/-- Decoding a JSON value into a `*string` field holding `cur`. -/
def decodeStringPtr (v : JSON) (cur : Option String) (st : DecodeState E) :
    Option String × DecodeState E :=
  match v with
  | JSON.null => (none, st)
  | JSON.str s => (some s, st)
  | other =>
    (some (cur.getD ""), st.saveError (UnmarshalError.UnmarshalTypeError other.describe "string"))

/-- The zero of a Go `int`. -/
def GoInt.zero : GoInt := ⟨0, by decide⟩

/-- Decoding a JSON value into a `*int` field holding `cur`: only a number literal in
integer form that fits a Go `int` is stored. -/
def decodeIntPtr (v : JSON) (cur : Option GoInt) (st : DecodeState E) :
    Option GoInt × DecodeState E :=
  match v with
  | JSON.null => (none, st)
  | JSON.int n =>
    if h : minInt ≤ n ∧ n ≤ maxInt then (some ⟨n, h⟩, st)
    else (some (cur.getD GoInt.zero),
      st.saveError (UnmarshalError.UnmarshalTypeError ("number " ++ Itoa n) "int"))
  | JSON.number literal =>
    (some (cur.getD GoInt.zero),
      st.saveError (UnmarshalError.UnmarshalTypeError ("number " ++ literal) "int"))
  | other =>
    (some (cur.getD GoInt.zero),
      st.saveError (UnmarshalError.UnmarshalTypeError other.describe "int"))

/-- Decoding a JSON value into a `*time.Time` field holding `cur`: any value but `null`
is handed to `UnmarshalJSON`, whose error stops decoding. -/
def decodeTimePtr (tc : TimeJSON Time E) (v : JSON) (cur : Option Time)
    (st : DecodeState E) : Option Time × DecodeState E :=
  match v with
  | JSON.null => (none, st)
  | other =>
    match tc.UnmarshalJSON other (cur.getD tc.zero) with
    | (t, none) => (some t, st)
    | (t, some e) => (some t, { st with failed := some (UnmarshalError.unmarshaler e) })

/-- Decoding one object member into a `Plan`. -/
def Plan.decodeMember (p : Plan) (key : String) (v : JSON) (st : DecodeState E) :
    Plan × DecodeState E :=
  match PlanField.byKey key with
  | none => (p, st)
  | some PlanField.Name =>
    let r := decodeStringPtr v p.Name st
    ({ p with Name := r.1 }, r.2)
  | some PlanField.Space =>
    let r := decodeIntPtr v p.Space st
    ({ p with Space := r.1 }, r.2)
  | some PlanField.Collaborators =>
    let r := decodeIntPtr v p.Collaborators st
    ({ p with Collaborators := r.1 }, r.2)
  | some PlanField.PrivateRepos =>
    let r := decodeIntPtr v p.PrivateRepos st
    ({ p with PrivateRepos := r.1 }, r.2)

/-- Decoding the members of an object one after the other, until an error stops it. -/
def decodeMembers {T : Type} (step : T → String → JSON → DecodeState E → T × DecodeState E) :
    List (String × JSON) → T → DecodeState E → T × DecodeState E
  | [], t, st => (t, st)
  | (key, v) :: rest, t, st =>
    let r := step t key v st
    if r.2.failed.isSome then r else decodeMembers step rest r.1 r.2

/-- Decoding a JSON value into a `*Plan` field holding `cur`. -/
def decodePlanPtr (v : JSON) (cur : Option Plan) (st : DecodeState E) :
    Option Plan × DecodeState E :=
  match v with
  | JSON.null => (none, st)
  | JSON.obj members =>
    let r := decodeMembers Plan.decodeMember members (cur.getD Plan.zero) st
    (some r.1, r.2)
  | other =>
    (some (cur.getD Plan.zero),
      st.saveError (UnmarshalError.UnmarshalTypeError other.describe "github.Plan"))

/-- Decoding a JSON value into a pointer field of the given type. -/
def decodePtr (tc : TimeJSON Time E) : (T : GoType) → JSON → Option (T.denote Time) →
    DecodeState E → Option (T.denote Time) × DecodeState E
  | GoType.string => decodeStringPtr
  | GoType.int => decodeIntPtr
  | GoType.time => decodeTimePtr tc
  | GoType.plan => decodePlanPtr

/-- Decoding one object member into an `Organization`. -/
def Organization.decodeMember (tc : TimeJSON Time E) (o : Organization Time) (key : String)
    (v : JSON) (st : DecodeState E) : Organization Time × DecodeState E :=
  match OrgField.byKey key with
  | none => (o, st)
  | some f =>
    let r := decodePtr tc f.type v (o.get f) st
    (o.set f r.1, r.2)

/-- Decoding a JSON value into an `Organization` struct: `null` leaves it as it is, an
object is stored member by member, anything else is a type error. -/
def Organization.decode (tc : TimeJSON Time E) (v : JSON) (o : Organization Time)
    (st : DecodeState E) : Organization Time × DecodeState E :=
  match v with
  | JSON.null => (o, st)
  | JSON.obj members => decodeMembers (Organization.decodeMember tc) members o st
  | other =>
    (o, st.saveError (UnmarshalError.UnmarshalTypeError other.describe "github.Organization"))

/-- Decoding the elements of a JSON array into a slice grown from length zero: each
element is decoded into a new zero `Organization`; an error that stops decoding leaves
the slice with the elements reached so far. -/
def decodeElems (tc : TimeJSON Time E) :
    List JSON → DecodeState E → List (Organization Time) × DecodeState E
  | [], st => ([], st)
  | v :: vs, st =>
    let r := Organization.decode tc v Organization.zero st
    if r.2.failed.isSome then ([r.1], r.2)
    else
      let rs := decodeElems tc vs r.2
      (r.1 :: rs.1, rs.2)

/-- Decoding a JSON value into a `[]Organization`: `null` gives the nil slice, an array
gives a slice of its decoded elements (empty and not nil for `[]`), anything else is a
type error. -/
def decodeSlice (tc : TimeJSON Time E) (v : JSON) (target : Slice (Organization Time))
    (st : DecodeState E) : Slice (Organization Time) × DecodeState E :=
  match v with
  | JSON.null => (none, st)
  | JSON.arr elems =>
    let r := decodeElems tc elems st
    (some r.1, r.2)
  | other =>
    (target,
      st.saveError (UnmarshalError.UnmarshalTypeError other.describe "[]github.Organization"))

/-- The `json.Unmarshal` of a JSON value into a `*Organization` with pointee `o`: the
pointee afterwards and the error. -/
def UnmarshalOrganization (tc : TimeJSON Time E) (v : JSON) (o : Organization Time) :
    Organization Time × Option (UnmarshalError E) :=
  let r := Organization.decode tc v o {}
  (r.1, r.2.err)

/-- The `json.Unmarshal` of a JSON value into a `*[]Organization` with pointee `orgs`. -/
def UnmarshalOrganizations (tc : TimeJSON Time E) (v : JSON)
    (orgs : Slice (Organization Time)) :
    Slice (Organization Time) × Option (UnmarshalError E) :=
  let r := decodeSlice tc v orgs {}
  (r.1, r.2.err)

/-- The members `json.Marshal` writes for a `Plan`: one per non-nil field. -/
def Plan.members (p : Plan) : List (String × JSON) :=
  List.filterMap id
    [p.Name.map (fun s => (PlanField.Name.tag, JSON.str s)),
     p.Space.map (fun n => (PlanField.Space.tag, JSON.int n.val)),
     p.Collaborators.map (fun n => (PlanField.Collaborators.tag, JSON.int n.val)),
     p.PrivateRepos.map (fun n => (PlanField.PrivateRepos.tag, JSON.int n.val))]

/-- Whether a field of a `Plan` is present (its pointer is not nil). -/
def Plan.has (p : Plan) : PlanField → Bool
  | PlanField.Name => p.Name.isSome
  | PlanField.Space => p.Space.isSome
  | PlanField.Collaborators => p.Collaborators.isSome
  | PlanField.PrivateRepos => p.PrivateRepos.isSome

/-- The `json.Marshal` of a `Plan`. -/
def Plan.Marshal (p : Plan) : JSON :=
  JSON.obj p.members

/-- The `json.Marshal` of the pointee of a field. -/
def encodeValue (tc : TimeJSON Time E) : (T : GoType) → T.denote Time → Except E JSON
  | GoType.string, s => Except.ok (JSON.str s)
  | GoType.int, n => Except.ok (JSON.int n.val)
  | GoType.time, t => tc.MarshalJSON t
  | GoType.plan, p => Except.ok (Plan.Marshal p)

/-- The members `json.Marshal` writes for the given fields of an `Organization`: a nil
pointer is omitted (`omitempty`), any other field is written under its tag; the error
of a `MarshalJSON` method fails the whole encoding. -/
def Organization.marshalFields (tc : TimeJSON Time E) (o : Organization Time) :
    List OrgField → Except E (List (String × JSON))
  | [] => Except.ok []
  | f :: fs =>
    match o.get f with
    | none => Organization.marshalFields tc o fs
    | some x =>
      match encodeValue tc f.type x with
      | Except.error e => Except.error e
      | Except.ok j =>
        match Organization.marshalFields tc o fs with
        | Except.error e => Except.error e
        | Except.ok ms => Except.ok ((f.tag, j) :: ms)

/-- The `json.Marshal` of an `Organization`. -/
def Organization.Marshal (tc : TimeJSON Time E) (o : Organization Time) : Except E JSON :=
  match Organization.marshalFields tc o OrgField.all with
  | Except.error e => Except.error e
  | Except.ok ms => Except.ok (JSON.obj ms)

/-- Modelled from the spec: `Client.NewRequest` and `Client.Do` are defined outside
`orgs.go`. This is a test double of the collaborator that answers every request with the
response metadata `resp` and the JSON body `body`: `NewRequest(method, path, body)`
returns the request made of its three arguments and no error; `Do(request, target)`
decodes the JSON response into the target and returns the response metadata with the
decoding error. -/
def stubClient (tc : TimeJSON Time E) (Response : Type) (resp : Response) (body : JSON) :
    Client Unit Time (String × String × Body Time) Response (UnmarshalError E) where
  NewRequest method urlStr b w := ((some (method, urlStr, b), none), w)
  DoOrganizations _ v w :=
    let r := UnmarshalOrganizations tc body v
    ((r.1, some resp, r.2), w)
  DoOrganization _ v w :=
    let r := UnmarshalOrganization tc body v
    ((r.1, some resp, r.2), w)

/-- The response body `{"login":"octocat","id":1}`. -/
def octocatBody : JSON :=
  JSON.obj [("login", JSON.str "octocat"), ("id", JSON.int 1)]

/-- An organization whose present fields hold zero values: an empty login, id 0 and a
plan with no field set. -/
def sampleOrg : Organization String :=
  { Login := some "", ID := some GoInt.zero, Plan := some {} }

/-- A `time.Time` stand-in for concrete runs: a timestamp is kept as its text, written
as a JSON string, and read back from a JSON string only. -/
def textTime : TimeJSON String String where
  zero := ""
  MarshalJSON t := Except.ok (JSON.str t)
  UnmarshalJSON v t :=
    match v with
    | JSON.str s => (s, none)
    | _ => (t, some "input is not a JSON string")

/-- An organization with a timestamp and a plan. -/
def octocatOrg : Organization String :=
  { Login := some "octocat", ID := some ⟨1, by decide⟩, PublicRepos := some GoInt.zero,
    CreatedAt := some "2013-06-01T12:00:00Z",
    Plan := some { Name := some "free", PrivateRepos := some GoInt.zero } }

/-! ### What a well-formed response stands for

The reading of an object that the specification describes: a field is present with the
matching value when the object has a key for it bound to a value other than `null`. -/

/-- Whether a JSON value is `null`. -/
def JSON.isNull : JSON → Bool
  | JSON.null => true
  | _ => false

/-- The string a JSON value stands for, when it is a JSON string. -/
def stringOf : JSON → Option String
  | JSON.str s => some s
  | _ => none

/-- The Go `int` a JSON value stands for, when it is a number literal in integer form
within the range of `int`. -/
def intOf : JSON → Option GoInt
  | JSON.int n => if h : minInt ≤ n ∧ n ≤ maxInt then some ⟨n, h⟩ else none
  | _ => none

/-- The timestamp a JSON value stands for, when it is not `null` and `UnmarshalJSON`
reads it into a new `time.Time` without error. -/
def timeOf (tc : TimeJSON Time E) (v : JSON) : Option Time :=
  if v.isNull then none
  else
    match tc.UnmarshalJSON v tc.zero with
    | (t, none) => some t
    | (_, some _) => none

/-- The types of the fields of `Plan`, behind the pointer. -/
def PlanField.Ty : PlanField → Type
  | PlanField.Name => String
  | PlanField.Space => GoInt
  | PlanField.Collaborators => GoInt
  | PlanField.PrivateRepos => GoInt

/-- Read a field of a `Plan` (the pointer stored in it). -/
def Plan.get (p : Plan) : (f : PlanField) → Option f.Ty
  | PlanField.Name => p.Name
  | PlanField.Space => p.Space
  | PlanField.Collaborators => p.Collaborators
  | PlanField.PrivateRepos => p.PrivateRepos

/-- The value a JSON value stands for in a field of `Plan`. -/
def PlanField.valueOf : (f : PlanField) → JSON → Option f.Ty
  | PlanField.Name => stringOf
  | PlanField.Space => intOf
  | PlanField.Collaborators => intOf
  | PlanField.PrivateRepos => intOf

/-- The members of an object that name the given field of `Plan`. -/
def PlanField.lookup (f : PlanField) (ms : List (String × JSON)) : Option (String × JSON) :=
  ms.find? (fun kv => PlanField.byKey kv.1 = some f)

/-- The value an object gives to a field of `Plan`: absent when no key names the field. -/
def PlanField.expected (f : PlanField) (ms : List (String × JSON)) : Option f.Ty :=
  match f.lookup ms with
  | none => none
  | some kv => f.valueOf kv.2

/-- The `Plan` an object stands for. -/
def Plan.ofMembers (ms : List (String × JSON)) : Plan :=
  { Name := PlanField.Name.expected ms
    Space := PlanField.Space.expected ms
    Collaborators := PlanField.Collaborators.expected ms
    PrivateRepos := PlanField.PrivateRepos.expected ms }

/-- An object is a well-formed `Plan`: no two keys name the same field, and a value
bound to a field's key is `null` or a value of the field's type. -/
def Plan.wellFormed (ms : List (String × JSON)) : Bool :=
  decide (ms.filterMap (fun kv => PlanField.byKey kv.1)).Nodup
    && ms.all (fun kv =>
      match PlanField.byKey kv.1 with
      | none => true
      | some f => kv.2.isNull || (f.valueOf kv.2).isSome)

/-- The `Plan` a JSON value stands for, when it is an object. -/
def planOf : JSON → Option Plan
  | JSON.obj ms => some (Plan.ofMembers ms)
  | _ => none

/-- The value a JSON value stands for in a field of the given type ("the matching
value"); `null` and values of another type stand for none. -/
def valueAs (tc : TimeJSON Time E) : (T : GoType) → JSON → Option (T.denote Time)
  | GoType.string => stringOf
  | GoType.int => intOf
  | GoType.time => timeOf tc
  | GoType.plan => planOf

/-- A JSON value is a value of the given field type. -/
def fits (tc : TimeJSON Time E) (T : GoType) (v : JSON) : Bool :=
  (valueAs tc T v).isSome
    && (match T, v with
      | GoType.plan, JSON.obj ms => Plan.wellFormed ms
      | _, _ => true)

/-- The members of an object that name the given field of `Organization`. -/
def OrgField.lookup (f : OrgField) (ms : List (String × JSON)) : Option (String × JSON) :=
  ms.find? (fun kv => OrgField.byKey kv.1 = some f)

/-- The value an object gives to a field of `Organization`: absent when no key names
the field or when the key is bound to `null`. -/
def OrgField.expected (tc : TimeJSON Time E) (f : OrgField) (ms : List (String × JSON)) :
    Option (f.type.denote Time) :=
  match f.lookup ms with
  | none => none
  | some kv => valueAs tc f.type kv.2

/-- The `Organization` an object stands for. -/
def Organization.ofMembers (tc : TimeJSON Time E) (ms : List (String × JSON)) :
    Organization Time :=
  { Login := OrgField.Login.expected tc ms
    ID := OrgField.ID.expected tc ms
    URL := OrgField.URL.expected tc ms
    AvatarURL := OrgField.AvatarURL.expected tc ms
    Name := OrgField.Name.expected tc ms
    Blog := OrgField.Blog.expected tc ms
    Location := OrgField.Location.expected tc ms
    Email := OrgField.Email.expected tc ms
    PublicRepos := OrgField.PublicRepos.expected tc ms
    PublicGists := OrgField.PublicGists.expected tc ms
    Followers := OrgField.Followers.expected tc ms
    Following := OrgField.Following.expected tc ms
    CreatedAt := OrgField.CreatedAt.expected tc ms
    UpdatedAt := OrgField.UpdatedAt.expected tc ms
    TotalPrivateRepos := OrgField.TotalPrivateRepos.expected tc ms
    OwnedPrivateRepos := OrgField.OwnedPrivateRepos.expected tc ms
    PrivateGists := OrgField.PrivateGists.expected tc ms
    DiskUsage := OrgField.DiskUsage.expected tc ms
    Collaborators := OrgField.Collaborators.expected tc ms
    BillingEmail := OrgField.BillingEmail.expected tc ms
    Plan := OrgField.Plan.expected tc ms }

/-- An object is a well-formed `Organization`: no two keys name the same field, and a
value bound to a field's key is `null` or a value of the field's type. -/
def Organization.wellFormed (tc : TimeJSON Time E) (ms : List (String × JSON)) : Bool :=
  decide (ms.filterMap (fun kv => OrgField.byKey kv.1)).Nodup
    && ms.all (fun kv =>
      match OrgField.byKey kv.1 with
      | none => true
      | some f => kv.2.isNull || fits tc f.type kv.2)

/-- The reading of a response that takes a field to be present exactly when the object
has the field's tag among its keys: `List`, against a stub answering with the array of
the given objects, returns one `Organization` per object, in order, and each field of
the i-th one is present exactly when the i-th object has a member under the field's
tag. -/
def ListFollowsKeys (tc : TimeJSON Time E) (objs : List (List (String × JSON))) : Prop :=
  ∃ orgs : List (Organization Time),
    (OrganizationsService.List ⟨stubClient tc Unit () (JSON.arr (objs.map JSON.obj))⟩
      "" none ()).1.1 = some orgs
    ∧ List.Forall₂
        (fun ms org => ∀ f : OrgField, (org.get f).isSome = true ↔ ∃ v, (f.tag, v) ∈ ms)
        objs orgs

/-- A response with three objects: two fields set; a `null`, an upper-case key, an
unknown key and a plan; no member at all. -/
def sampleObjects : List (List (String × JSON)) :=
  [[("login", JSON.str "octocat"), ("id", JSON.int 1)],
   [("Login", JSON.str "github"), ("name", JSON.null), ("site_admin", JSON.bool false),
    ("created_at", JSON.str "2013-06-01T12:00:00Z"),
    ("plan", JSON.obj [("name", JSON.str "free"), ("space", JSON.int 0)])],
   []]

end Coding

/-! ## Facts about the library routines -/

theorem Sprintf_users_orgs (user : String) :
    Sprintf "users/%v/orgs" [user] = "users/" ++ user ++ "/orgs" := by
  apply String.ext
  simp [Sprintf, Sprintf.go, String.data_append]

theorem Sprintf_orgs (name : String) : Sprintf "orgs/%v" [name] = "orgs/" ++ name := by
  apply String.ext
  simp [Sprintf, Sprintf.go, String.data_append]

theorem digitChar_mem (n : Nat) (h : n < 10) : Nat.digitChar n ∈ decimalChars := by
  interval_cases n <;> decide

theorem toDigitsCore_mem (f : Nat) : ∀ (n : Nat) (acc : List Char),
    (∀ c ∈ acc, c ∈ decimalChars) → ∀ c ∈ Nat.toDigitsCore 10 f n acc, c ∈ decimalChars := by
  induction f with
  | zero => intro n acc h c hc; exact h c (by simpa [Nat.toDigitsCore] using hc)
  | succ f ih =>
    intro n acc h c hc
    have hacc : ∀ d ∈ Nat.digitChar (n % 10) :: acc, d ∈ decimalChars := by
      intro d hd
      rcases List.mem_cons.mp hd with rfl | hd
      · exact digitChar_mem _ (Nat.mod_lt _ (by decide))
      · exact h d hd
    simp only [Nat.toDigitsCore] at hc
    split at hc
    · exact hacc c hc
    · exact ih _ _ hacc c hc

theorem Nat_repr_mem (n : Nat) : ∀ c ∈ (Nat.repr n).data, c ∈ decimalChars := by
  intro c hc
  exact toDigitsCore_mem (n + 1) n [] (fun d hd => absurd hd (List.not_mem_nil d)) c
    (by simpa [Nat.repr, Nat.toDigits] using hc)

theorem Itoa_mem (i : Int) : ∀ c ∈ (Itoa i).data, c ∈ decimalChars := by
  intro c hc
  cases i with
  | ofNat m => exact Nat_repr_mem m c hc
  | negSucc m =>
    simp only [Itoa, String.data_append, List.mem_append] at hc
    rcases hc with hc | hc
    · have : c = '-' := by simpa using hc
      subst this; decide
    · exact Nat_repr_mem _ c hc

theorem escape_decimalChar (c : Char) (h : c ∈ decimalChars) :
    ((String.utf8EncodeChar c).map UInt8.toNat).flatMap escapeByte = [c] := by
  simp only [decimalChars, List.mem_cons, List.mem_singleton, List.not_mem_nil, or_false] at h
  rcases h with rfl | rfl | rfl | rfl | rfl | rfl | rfl | rfl | rfl | rfl | rfl <;> decide

theorem flatMap_escape (l : List Char) (h : ∀ c ∈ l, c ∈ decimalChars) :
    (l.flatMap (fun c => (String.utf8EncodeChar c).map UInt8.toNat)).flatMap escapeByte = l := by
  induction l with
  | nil => rfl
  | cons c l ih =>
    simp only [List.flatMap_cons, List.flatMap_append]
    rw [escape_decimalChar c (h c (List.mem_cons_self _ _)),
      ih (fun d hd => h d (List.mem_cons_of_mem _ hd))]
    rfl

theorem QueryEscape_Itoa (i : Int) : QueryEscape (Itoa i) = Itoa i := by
  apply String.ext
  simp only [QueryEscape, utf8Bytes]
  exact flatMap_escape _ (Itoa_mem i)

theorem Encode_page (i : Int) : Values.Encode [("page", [Itoa i])] = "page=" ++ Itoa i := by
  have h : QueryEscape "page" = "page" := by decide
  simp [Values.Encode, QueryEscape_Itoa, h, String.intercalate, String.intercalate.go]

/-! ## The requests issued by `List`, `Get` and `Edit` -/

section Requests

variable {σ Time Request Response Error : Type}

/-- The path `List` computes before it calls `NewRequest`. -/
theorem List_path (user : String) (opt : Option ListOptions) :
    (match opt with
      | some opt =>
        (if user ≠ "" then Sprintf "users/%v/orgs" [user] else "user/orgs") ++
          ("?" ++ Values.Encode [("page", [Itoa opt.Page.val])])
      | none => if user ≠ "" then Sprintf "users/%v/orgs" [user] else "user/orgs") =
    (if user = "" then "user/orgs" else "users/" ++ user ++ "/orgs") ++
      (match opt with
        | none => ""
        | some o => "?" ++ Values.Encode [("page", [Itoa o.Page.val])]) := by
  by_cases hu : user = "" <;> cases opt <;> simp [hu, Sprintf_users_orgs]

/-- What `List` does, in terms of the collaborator. -/
theorem List_eq (c : Client σ Time Request Response Error) (user : String)
    (opt : Option ListOptions) (w : σ) :
    OrganizationsService.List ⟨c⟩ user opt w =
      match c.NewRequest "GET"
        ((if user = "" then "user/orgs" else "users/" ++ user ++ "/orgs") ++
          (match opt with
            | none => ""
            | some o => "?" ++ Values.Encode [("page", [Itoa o.Page.val])])) Body.nil w with
      | ((_, some err), w1) => ((none, none, some err), w1)
      | ((req, none), w1) => c.DoOrganizations req none w1 := by
  rw [← List_path]
  unfold OrganizationsService.List
  simp only []

/-- What `Get` does, in terms of the collaborator. -/
theorem Get_eq (c : Client σ Time Request Response Error) (org : String) (w : σ) :
    OrganizationsService.Get ⟨c⟩ org w =
      match c.NewRequest "GET" ("orgs/" ++ org) Body.nil w with
      | ((_, some err), w1) => ((none, none, some err), w1)
      | ((req, none), w1) =>
        ((some (c.DoOrganization req Organization.zero w1).1.1,
          (c.DoOrganization req Organization.zero w1).1.2),
          (c.DoOrganization req Organization.zero w1).2) := by
  unfold OrganizationsService.Get
  simp only [Sprintf_orgs]

/-- What `Edit` does, in terms of the collaborator. -/
theorem Edit_eq (c : Client σ Time Request Response Error) (name : String)
    (org : Option (Organization Time)) (w : σ) :
    OrganizationsService.Edit ⟨c⟩ name org w =
      match c.NewRequest "PATCH" ("orgs/" ++ name) (Body.organization org) w with
      | ((_, some err), w1) => ((none, none, some err), w1)
      | ((req, none), w1) =>
        ((some (c.DoOrganization req Organization.zero w1).1.1,
          (c.DoOrganization req Organization.zero w1).1.2),
          (c.DoOrganization req Organization.zero w1).2) := by
  unfold OrganizationsService.Edit
  simp only [Sprintf_orgs]

/-- The calls `List` makes on a recording collaborator, and what it returns. -/
theorem List_traced (c : Client σ Time Request Response Error) (user : String)
    (opt : Option ListOptions) (w : σ) (u : String)
    (hu : u = (if user = "" then "user/orgs" else "users/" ++ user ++ "/orgs") ++
      (match opt with
        | none => ""
        | some o => "?" ++ Values.Encode [("page", [Itoa o.Page.val])])) :
    OrganizationsService.List ⟨c.traced⟩ user opt (w, []) =
      match c.NewRequest "GET" u Body.nil w with
      | ((_, some err), w1) =>
        ((none, none, some err), (w1, [Call.NewRequest "GET" u Body.nil]))
      | ((req, none), w1) =>
        ((c.DoOrganizations req none w1).1, ((c.DoOrganizations req none w1).2,
          [Call.NewRequest "GET" u Body.nil, Call.DoOrganizations req none])) := by
  subst hu
  rw [List_eq]
  simp only [Client.traced]
  generalize c.NewRequest "GET" _ Body.nil w = r
  obtain ⟨⟨req, _ | err⟩, w1⟩ := r <;> simp

/-- The calls `Get` makes on a recording collaborator, and what it returns. -/
theorem Get_traced (c : Client σ Time Request Response Error) (org : String) (w : σ) :
    OrganizationsService.Get ⟨c.traced⟩ org (w, []) =
      match c.NewRequest "GET" ("orgs/" ++ org) Body.nil w with
      | ((_, some err), w1) =>
        ((none, none, some err), (w1, [Call.NewRequest "GET" ("orgs/" ++ org) Body.nil]))
      | ((req, none), w1) =>
        ((some (c.DoOrganization req Organization.zero w1).1.1,
          (c.DoOrganization req Organization.zero w1).1.2),
          ((c.DoOrganization req Organization.zero w1).2,
            [Call.NewRequest "GET" ("orgs/" ++ org) Body.nil,
             Call.DoOrganization req Organization.zero])) := by
  rw [Get_eq]
  simp only [Client.traced]
  generalize c.NewRequest "GET" _ Body.nil w = r
  obtain ⟨⟨req, _ | err⟩, w1⟩ := r <;> simp

/-- The calls `Edit` makes on a recording collaborator, and what it returns. -/
theorem Edit_traced (c : Client σ Time Request Response Error) (name : String)
    (org : Option (Organization Time)) (w : σ) :
    OrganizationsService.Edit ⟨c.traced⟩ name org (w, []) =
      match c.NewRequest "PATCH" ("orgs/" ++ name) (Body.organization org) w with
      | ((_, some err), w1) =>
        ((none, none, some err),
          (w1, [Call.NewRequest "PATCH" ("orgs/" ++ name) (Body.organization org)]))
      | ((req, none), w1) =>
        ((some (c.DoOrganization req Organization.zero w1).1.1,
          (c.DoOrganization req Organization.zero w1).1.2),
          ((c.DoOrganization req Organization.zero w1).2,
            [Call.NewRequest "PATCH" ("orgs/" ++ name) (Body.organization org),
             Call.DoOrganization req Organization.zero])) := by
  rw [Edit_eq]
  simp only [Client.traced]
  generalize c.NewRequest "PATCH" _ (Body.organization org) w = r
  obtain ⟨⟨req, _ | err⟩, w1⟩ := r <;> simp

/-- C1: for every user string and every pagination option, the first call `List` makes
is `NewRequest` with method GET, no body, and a path made of "user/orgs" (empty user) or
"users/" ++ user ++ "/orgs" (non-empty user, inserted verbatim) followed by the
pagination suffix alone (nothing for nil options, "?" and the encoded page parameter
otherwise); no other request is built. -/
theorem C1_List_request_path (c : Client σ Time Request Response Error) (user : String)
    (opt : Option ListOptions) (w : σ) :
    ∃ rest, (OrganizationsService.List ⟨c.traced⟩ user opt (w, [])).2.2 =
        Call.NewRequest "GET"
          ((if user = "" then "user/orgs" else "users/" ++ user ++ "/orgs") ++
            (match opt with
              | none => ""
              | some o => "?" ++ Values.Encode [("page", [Itoa o.Page.val])]))
          Body.nil :: rest
      ∧ ∀ x ∈ rest, Call.isNewRequest x = false := by
  rw [List_traced c user opt w _ rfl]
  generalize c.NewRequest "GET" _ Body.nil w = r
  obtain ⟨⟨req, _ | err⟩, w1⟩ := r
  · exact ⟨[Call.DoOrganizations req none], rfl, by simp [Call.isNewRequest]⟩
  · exact ⟨[], rfl, by simp⟩

/-- C2: for every user string, with pagination options present and page number p the
path handed to `NewRequest` is the base path followed by exactly "?page=" and the decimal
text of p (for every integer p, zero and negatives included: the text is its own URL
encoding); with nil options the path is the base path and nothing else. -/
theorem C2_List_page_parameter (c : Client σ Time Request Response Error) (user : String)
    (w : σ) :
    (∀ p : GoInt, ∃ rest,
      (OrganizationsService.List ⟨c.traced⟩ user (some ⟨p⟩) (w, [])).2.2 =
        Call.NewRequest "GET"
          ((if user = "" then "user/orgs" else "users/" ++ user ++ "/orgs") ++ "?page=" ++
            Itoa p.val) Body.nil :: rest)
    ∧ (∃ rest,
      (OrganizationsService.List ⟨c.traced⟩ user none (w, [])).2.2 =
        Call.NewRequest "GET"
          (if user = "" then "user/orgs" else "users/" ++ user ++ "/orgs") Body.nil :: rest)
    ∧ (∀ p : Int, Values.Encode [("page", [Itoa p])] = "page=" ++ Itoa p
        ∧ QueryEscape (Itoa p) = Itoa p ∧ Itoa p = toString p) := by
  refine ⟨?_, ?_, ?_⟩
  · intro p
    have hpath : (if user = "" then "user/orgs" else "users/" ++ user ++ "/orgs") ++ "?page=" ++
        Itoa p.val = (if user = "" then "user/orgs" else "users/" ++ user ++ "/orgs") ++
          (match (some ⟨p⟩ : Option ListOptions) with
            | none => ""
            | some o => "?" ++ Values.Encode [("page", [Itoa o.Page.val])]) := by
      simp only [Encode_page, String.append_assoc]
      rfl
    rw [List_traced c user (some ⟨p⟩) w _ hpath]
    generalize c.NewRequest "GET" _ Body.nil w = r
    obtain ⟨⟨req, _ | err⟩, w1⟩ := r
    · exact ⟨_, rfl⟩
    · exact ⟨_, rfl⟩
  · have hpath : (if user = "" then "user/orgs" else "users/" ++ user ++ "/orgs") =
        (if user = "" then "user/orgs" else "users/" ++ user ++ "/orgs") ++
          (match (none : Option ListOptions) with
            | none => ""
            | some o => "?" ++ Values.Encode [("page", [Itoa o.Page.val])]) := by
      simp
    rw [List_traced c user none w _ hpath]
    generalize c.NewRequest "GET" _ Body.nil w = r
    obtain ⟨⟨req, _ | err⟩, w1⟩ := r
    · exact ⟨_, rfl⟩
    · exact ⟨_, rfl⟩
  · intro p
    refine ⟨Encode_page p, QueryEscape_Itoa p, ?_⟩
    cases p <;> rfl

/-- C3: each of `List`, `Get` and `Edit` calls `NewRequest` exactly once, calls `Do`
exactly once when that call returned no error and never when it returned one, and in
the failing case returns a nil result, nil response metadata and the very error
`NewRequest` returned. -/
theorem C3_one_NewRequest_then_one_Do (c : Client σ Time Request Response Error) :
    (∀ (user : String) (opt : Option ListOptions) (w : σ),
      (OrganizationsService.List ⟨c.traced⟩ user opt (w, [])).2.2.countP Call.isNewRequest = 1
      ∧ (OrganizationsService.List ⟨c.traced⟩ user opt (w, [])).2.2.countP Call.isDo =
          (if (c.NewRequest "GET"
            ((if user = "" then "user/orgs" else "users/" ++ user ++ "/orgs") ++
              (match opt with
                | none => ""
                | some o => "?" ++ Values.Encode [("page", [Itoa o.Page.val])]))
            Body.nil w).1.2.isSome then 0 else 1)
      ∧ ∀ err, (c.NewRequest "GET"
            ((if user = "" then "user/orgs" else "users/" ++ user ++ "/orgs") ++
              (match opt with
                | none => ""
                | some o => "?" ++ Values.Encode [("page", [Itoa o.Page.val])]))
            Body.nil w).1.2 = some err →
          (OrganizationsService.List ⟨c.traced⟩ user opt (w, [])).1 = (none, none, some err))
    ∧ (∀ (org : String) (w : σ),
      (OrganizationsService.Get ⟨c.traced⟩ org (w, [])).2.2.countP Call.isNewRequest = 1
      ∧ (OrganizationsService.Get ⟨c.traced⟩ org (w, [])).2.2.countP Call.isDo =
          (if (c.NewRequest "GET" ("orgs/" ++ org) Body.nil w).1.2.isSome then 0 else 1)
      ∧ ∀ err, (c.NewRequest "GET" ("orgs/" ++ org) Body.nil w).1.2 = some err →
          (OrganizationsService.Get ⟨c.traced⟩ org (w, [])).1 = (none, none, some err))
    ∧ (∀ (name : String) (org : Option (Organization Time)) (w : σ),
      (OrganizationsService.Edit ⟨c.traced⟩ name org (w, [])).2.2.countP Call.isNewRequest = 1
      ∧ (OrganizationsService.Edit ⟨c.traced⟩ name org (w, [])).2.2.countP Call.isDo =
          (if (c.NewRequest "PATCH" ("orgs/" ++ name) (Body.organization org) w).1.2.isSome
            then 0 else 1)
      ∧ ∀ err, (c.NewRequest "PATCH" ("orgs/" ++ name) (Body.organization org) w).1.2 =
            some err →
          (OrganizationsService.Edit ⟨c.traced⟩ name org (w, [])).1 =
            (none, none, some err)) := by
  refine ⟨?_, ?_, ?_⟩
  · intro user opt w
    rw [List_traced c user opt w _ rfl]
    generalize c.NewRequest "GET" _ Body.nil w = r
    obtain ⟨⟨req, _ | err⟩, w1⟩ := r <;> simp [Call.isNewRequest, Call.isDo]
  · intro org w
    rw [Get_traced]
    generalize c.NewRequest "GET" _ Body.nil w = r
    obtain ⟨⟨req, _ | err⟩, w1⟩ := r <;> simp [Call.isNewRequest, Call.isDo]
  · intro name org w
    rw [Edit_traced]
    generalize c.NewRequest "PATCH" _ (Body.organization org) w = r
    obtain ⟨⟨req, _ | err⟩, w1⟩ := r <;> simp [Call.isNewRequest, Call.isDo]

/-- C3 at a collaborator whose `NewRequest` fails with "bad URL": `Get` returns nil, nil
and that error. -/
theorem C3_witness :
    (OrganizationsService.Get
      ⟨(refusingClient String Unit Unit "bad URL").traced⟩ "octocat" ((), [])).1 =
      (none, none, some "bad URL") :=
  ((C3_one_NewRequest_then_one_Do (refusingClient String Unit Unit "bad URL")).2.1
    "octocat" ()).2.2 "bad URL" rfl

/-- C4: for each of `List`, `Get` and `Edit`, when `NewRequest` returned no error and `Do`
returned a response and an error (nil or not), the operation returns that response and
that error as they are, with the decode target. -/
theorem C4_Do_response_and_error_returned (c : Client σ Time Request Response Error) :
    (∀ (user : String) (opt : Option ListOptions) (w w1 w2 : σ) (req : Option Request)
        (orgs : Slice (Organization Time)) (resp : Option Response) (err : Option Error),
      c.NewRequest "GET"
          ((if user = "" then "user/orgs" else "users/" ++ user ++ "/orgs") ++
            (match opt with
              | none => ""
              | some o => "?" ++ Values.Encode [("page", [Itoa o.Page.val])]))
          Body.nil w = ((req, none), w1) →
      c.DoOrganizations req none w1 = ((orgs, resp, err), w2) →
      OrganizationsService.List ⟨c⟩ user opt w = ((orgs, resp, err), w2))
    ∧ (∀ (org : String) (w w1 w2 : σ) (req : Option Request) (o : Organization Time)
        (resp : Option Response) (err : Option Error),
      c.NewRequest "GET" ("orgs/" ++ org) Body.nil w = ((req, none), w1) →
      c.DoOrganization req Organization.zero w1 = ((o, resp, err), w2) →
      OrganizationsService.Get ⟨c⟩ org w = ((some o, resp, err), w2))
    ∧ (∀ (name : String) (org : Option (Organization Time)) (w w1 w2 : σ)
        (req : Option Request) (o : Organization Time) (resp : Option Response)
        (err : Option Error),
      c.NewRequest "PATCH" ("orgs/" ++ name) (Body.organization org) w = ((req, none), w1) →
      c.DoOrganization req Organization.zero w1 = ((o, resp, err), w2) →
      OrganizationsService.Edit ⟨c⟩ name org w = ((some o, resp, err), w2)) := by
  refine ⟨?_, ?_, ?_⟩
  · intro user opt w w1 w2 req orgs resp err hN hD
    rw [List_eq, hN]
    exact hD
  · intro org w w1 w2 req o resp err hN hD
    rw [Get_eq, hN]
    simp only [hD]
  · intro name org w w1 w2 req o resp err hN hD
    rw [Edit_eq, hN]
    simp only [hD]

/-- C4 at a collaborator that answers with status 500 and a body that is not an object:
`Get` returns the response metadata and the decoding error `Do` returned. -/
theorem C4_witness :
    OrganizationsService.Get ⟨stubClient textTime Nat 500 (JSON.str "oops")⟩ "octocat" () =
      ((some Organization.zero, some 500,
        some (UnmarshalError.UnmarshalTypeError "string" "github.Organization")), ()) :=
  (C4_Do_response_and_error_returned
    (stubClient textTime Nat 500 (JSON.str "oops"))).2.1 "octocat" () () ()
    (some ("GET", "orgs/octocat", Body.nil)) Organization.zero (some 500)
    (some (UnmarshalError.UnmarshalTypeError "string" "github.Organization")) rfl rfl

/-- C10: when `NewRequest` returned no error, `Get` and `Edit` return a non-nil resource
whatever error `Do` returned: it is the decode target allocated by `new(Organization)`,
so it has every field absent when `Do` did not write to it; `List` returns the contents
of its decode target, the nil slice when `Do` did not write to it; and `Get` and `Edit`
return a nil resource only when `NewRequest` returned an error. -/
theorem C10_resource_returned_with_Do_error (c : Client σ Time Request Response Error) :
    (∀ (org : String) (w w1 w2 : σ) (req : Option Request) (o : Organization Time)
        (resp : Option Response) (err : Option Error),
      c.NewRequest "GET" ("orgs/" ++ org) Body.nil w = ((req, none), w1) →
      c.DoOrganization req Organization.zero w1 = ((o, resp, err), w2) →
      (OrganizationsService.Get ⟨c⟩ org w).1 = (some o, resp, err)
      ∧ (o = Organization.zero →
        ∃ r, (OrganizationsService.Get ⟨c⟩ org w).1.1 = some r ∧ ∀ f, r.get f = none))
    ∧ (∀ (name : String) (org : Option (Organization Time)) (w w1 w2 : σ)
        (req : Option Request) (o : Organization Time) (resp : Option Response)
        (err : Option Error),
      c.NewRequest "PATCH" ("orgs/" ++ name) (Body.organization org) w = ((req, none), w1) →
      c.DoOrganization req Organization.zero w1 = ((o, resp, err), w2) →
      (OrganizationsService.Edit ⟨c⟩ name org w).1 = (some o, resp, err)
      ∧ (o = Organization.zero →
        ∃ r, (OrganizationsService.Edit ⟨c⟩ name org w).1.1 = some r ∧ ∀ f, r.get f = none))
    ∧ (∀ (user : String) (opt : Option ListOptions) (w w1 w2 : σ) (req : Option Request)
        (orgs : Slice (Organization Time)) (resp : Option Response) (err : Option Error),
      c.NewRequest "GET"
          ((if user = "" then "user/orgs" else "users/" ++ user ++ "/orgs") ++
            (match opt with
              | none => ""
              | some o => "?" ++ Values.Encode [("page", [Itoa o.Page.val])]))
          Body.nil w = ((req, none), w1) →
      c.DoOrganizations req none w1 = ((orgs, resp, err), w2) →
      (OrganizationsService.List ⟨c⟩ user opt w).1 = (orgs, resp, err)
      ∧ (orgs = none → (OrganizationsService.List ⟨c⟩ user opt w).1.1 = none))
    ∧ (∀ (org : String) (w : σ),
      (OrganizationsService.Get ⟨c⟩ org w).1.1 = none ↔
        (c.NewRequest "GET" ("orgs/" ++ org) Body.nil w).1.2 ≠ none)
    ∧ (∀ (name : String) (org : Option (Organization Time)) (w : σ),
      (OrganizationsService.Edit ⟨c⟩ name org w).1.1 = none ↔
        (c.NewRequest "PATCH" ("orgs/" ++ name) (Body.organization org) w).1.2 ≠ none) := by
  refine ⟨?_, ?_, ?_, ?_, ?_⟩
  · intro org w w1 w2 req o resp err hN hD
    rw [Get_eq, hN]
    simp only [hD]
    refine ⟨trivial, fun ho => ⟨o, rfl, fun f => ?_⟩⟩
    subst ho
    cases f <;> rfl
  · intro name org w w1 w2 req o resp err hN hD
    rw [Edit_eq, hN]
    simp only [hD]
    refine ⟨trivial, fun ho => ⟨o, rfl, fun f => ?_⟩⟩
    subst ho
    cases f <;> rfl
  · intro user opt w w1 w2 req orgs resp err hN hD
    rw [List_eq, hN]
    simp only [hD]
    exact ⟨trivial, fun h => h⟩
  · intro org w
    rw [Get_eq]
    generalize c.NewRequest "GET" _ Body.nil w = r
    obtain ⟨⟨req, _ | err⟩, w1⟩ := r <;> simp
  · intro name org w
    rw [Edit_eq]
    generalize c.NewRequest "PATCH" _ (Body.organization org) w = r
    obtain ⟨⟨req, _ | err⟩, w1⟩ := r <;> simp

/-- C10 at a collaborator whose `Do` fails without writing to its target: `Get` still
returns a resource, with every field absent, next to the error. -/
theorem C10_witness :
    (OrganizationsService.Get ⟨stubClient textTime Nat 500 (JSON.str "oops")⟩ "octocat" ()).1 =
      (some Organization.zero, some 500,
        some (UnmarshalError.UnmarshalTypeError "string" "github.Organization")) :=
  ((C10_resource_returned_with_Do_error
    (stubClient textTime Nat 500 (JSON.str "oops"))).1 "octocat" () () ()
    (some ("GET", "orgs/octocat", Body.nil)) Organization.zero (some 500)
    (some (UnmarshalError.UnmarshalTypeError "string" "github.Organization")) rfl rfl).1

/-- C5: for every name, `Get` builds one request, with method GET, path "orgs/" ++ name
and no body; when that succeeds it returns the resource `Do` decoded into a newly
allocated `Organization`; and `Get("octocat")` against a stub whose response body is
`{"login":"octocat","id":1}` yields Login = "octocat", ID = 1 and every other field,
Plan included, absent. -/
theorem C5_Get_request_and_resource :
    (∀ (c : Client σ Time Request Response Error) (name : String) (w : σ),
      (∃ rest, (OrganizationsService.Get ⟨c.traced⟩ name (w, [])).2.2 =
          Call.NewRequest "GET" ("orgs/" ++ name) Body.nil :: rest
        ∧ ∀ x ∈ rest, Call.isNewRequest x = false)
      ∧ ∀ req w1, c.NewRequest "GET" ("orgs/" ++ name) Body.nil w = ((req, none), w1) →
          (OrganizationsService.Get ⟨c⟩ name w).1.1 =
            some (c.DoOrganization req Organization.zero w1).1.1)
    ∧ (∀ (tc : TimeJSON Time Error) (resp : Response),
      (OrganizationsService.Get ⟨stubClient tc Response resp octocatBody⟩ "octocat" ()).1 =
        (some { Login := some "octocat", ID := some ⟨1, by decide⟩ }, some resp, none)
      ∧ ∀ r, (OrganizationsService.Get
            ⟨stubClient tc Response resp octocatBody⟩ "octocat" ()).1.1 = some r →
          ∀ f, f ≠ OrgField.Login → f ≠ OrgField.ID → r.get f = none) := by
  refine ⟨fun c name w => ⟨?_, ?_⟩, fun tc resp => ?_⟩
  · rw [Get_traced]
    generalize c.NewRequest "GET" _ Body.nil w = r
    obtain ⟨⟨req, _ | err⟩, w1⟩ := r
    · exact ⟨[Call.DoOrganization req Organization.zero], rfl, by simp [Call.isNewRequest]⟩
    · exact ⟨[], rfl, by simp⟩
  · intro req w1 hN
    rw [Get_eq, hN]
  · have h : (OrganizationsService.Get
        ⟨stubClient tc Response resp octocatBody⟩ "octocat" ()).1 =
        (some { Login := some "octocat", ID := some ⟨1, by decide⟩ }, some resp, none) := by
      rfl
    refine ⟨h, fun r hr f hL hI => ?_⟩
    rw [h] at hr
    cases hr
    cases f <;> first | rfl | exact absurd rfl hL | exact absurd rfl hI

/-- C5 at the recording stub for `{"login":"octocat","id":1}`: the resource `Get` returns
is the one `Do` decoded into the new `Organization`. -/
theorem C5_witness :
    (OrganizationsService.Get ⟨stubClient textTime Nat 200 octocatBody⟩ "octocat" ()).1.1 =
      some ((stubClient textTime Nat 200 octocatBody).DoOrganization
        (some ("GET", "orgs/octocat", Body.nil)) Organization.zero ()).1.1 :=
  ((@C5_Get_request_and_resource Unit String (String × String × Body String) Nat
      (UnmarshalError String)).1
    (stubClient textTime Nat 200 octocatBody) "octocat" ()).2
    (some ("GET", "orgs/octocat", Body.nil)) () rfl

/-- C6: for every name and every partial resource org, `Edit` builds one request, with
method PATCH, path "orgs/" ++ name and org as the body; the target it hands to `Do` is a
newly allocated `Organization`, not org, and the resource it returns is the one `Do`
decoded into that target; against a stub answering with the JSON value r the returned
resource is the decoding of r into a new `Organization`, whatever org holds. -/
theorem C6_Edit_request_and_resource :
    (∀ (c : Client σ Time Request Response Error) (name : String)
        (org : Option (Organization Time)) (w : σ),
      (∃ rest, (OrganizationsService.Edit ⟨c.traced⟩ name org (w, [])).2.2 =
          Call.NewRequest "PATCH" ("orgs/" ++ name) (Body.organization org) :: rest
        ∧ ∀ x ∈ rest, ∃ req, x = Call.DoOrganization req Organization.zero)
      ∧ ∀ req w1,
          c.NewRequest "PATCH" ("orgs/" ++ name) (Body.organization org) w = ((req, none), w1) →
          (OrganizationsService.Edit ⟨c⟩ name org w).1.1 =
            some (c.DoOrganization req Organization.zero w1).1.1)
    ∧ (∀ (tc : TimeJSON Time Error) (resp : Response) (r : JSON) (name : String)
        (org : Option (Organization Time)),
      (OrganizationsService.Edit ⟨stubClient tc Response resp r⟩ name org ()).1 =
        (some (UnmarshalOrganization tc r Organization.zero).1, some resp,
          (UnmarshalOrganization tc r Organization.zero).2)) := by
  refine ⟨fun c name org w => ⟨?_, ?_⟩, fun tc resp r name org => ?_⟩
  · rw [Edit_traced]
    generalize c.NewRequest "PATCH" _ (Body.organization org) w = n
    obtain ⟨⟨req, _ | err⟩, w1⟩ := n
    · exact ⟨[Call.DoOrganization req Organization.zero], rfl, by simp⟩
    · exact ⟨[], rfl, by simp⟩
  · intro req w1 hN
    rw [Edit_eq, hN]
  · rw [Edit_eq]
    rfl

/-- C6 at a stub whose answer differs from the input: `Edit` of an organization named
"input" returns what `Do` decoded, not the input. -/
theorem C6_witness :
    (OrganizationsService.Edit ⟨stubClient textTime Nat 200 octocatBody⟩ "octocat"
      (some { Name := some "input" }) ()).1.1 =
      some ((stubClient textTime Nat 200 octocatBody).DoOrganization
        (some ("PATCH", "orgs/octocat", Body.organization (some { Name := some "input" })))
        Organization.zero ()).1.1 :=
  ((@C6_Edit_request_and_resource Unit String (String × String × Body String) Nat
      (UnmarshalError String)).1
    (stubClient textTime Nat 200 octocatBody) "octocat" (some { Name := some "input" }) ()).2
    (some ("PATCH", "orgs/octocat", Body.organization (some { Name := some "input" }))) () rfl

end Requests





/-! ## JSON coding: field tables -/

section Tables

variable {Time E : Type}

theorem Organization.get_set_same (o : Organization Time) (f : OrgField)
    (x : Option (f.type.denote Time)) : (o.set f x).get f = x := by
  cases f <;> rfl

theorem Organization.get_set_ne (o : Organization Time) (f g : OrgField)
    (x : Option (f.type.denote Time)) (h : g ≠ f) : (o.set f x).get g = o.get g := by
  cases f <;> cases g <;> first | rfl | exact absurd rfl h

theorem Organization.zero_get (f : OrgField) :
    (Organization.zero : Organization Time).get f = none := by
  cases f <;> rfl

theorem Organization_ext_get (o o2 : Organization Time) (h : ∀ f, o.get f = o2.get f) :
    o = o2 := by
  cases o
  cases o2
  simp only [Organization.mk.injEq]
  exact ⟨h OrgField.Login, h OrgField.ID, h OrgField.URL, h OrgField.AvatarURL,
    h OrgField.Name, h OrgField.Blog, h OrgField.Location, h OrgField.Email,
    h OrgField.PublicRepos, h OrgField.PublicGists, h OrgField.Followers,
    h OrgField.Following, h OrgField.CreatedAt, h OrgField.UpdatedAt,
    h OrgField.TotalPrivateRepos, h OrgField.OwnedPrivateRepos, h OrgField.PrivateGists,
    h OrgField.DiskUsage, h OrgField.Collaborators, h OrgField.BillingEmail,
    h OrgField.Plan⟩

theorem OrgField_byKey_tag (f : OrgField) : OrgField.byKey f.tag = some f := by
  cases f <;> rfl

theorem PlanField_byKey_tag (f : PlanField) : PlanField.byKey f.tag = some f := by
  cases f <;> rfl

theorem OrgField_tag_injective (f g : OrgField) (h : f.tag = g.tag) : f = g := by
  have hf := OrgField_byKey_tag f
  rw [h, OrgField_byKey_tag g] at hf
  exact (Option.some.inj hf).symm

theorem PlanField_tag_injective (f g : PlanField) (h : f.tag = g.tag) : f = g := by
  have hf := PlanField_byKey_tag f
  rw [h, PlanField_byKey_tag g] at hf
  exact (Option.some.inj hf).symm

theorem OrgField.mem_all (f : OrgField) : f ∈ OrgField.all := by
  cases f <;> simp [OrgField.all]

theorem OrgField.nodup_all : OrgField.all.Nodup := by
  decide

end Tables

/-! ## Encoding: which keys are written -/

section Encoding

variable {Time E : Type}

theorem marshalFields_keys (tc : TimeJSON Time E) (o : Organization Time) :
    ∀ (fs : List OrgField) (ms : List (String × JSON)),
      Organization.marshalFields tc o fs = Except.ok ms →
      ms.map Prod.fst = (fs.filter (fun f => (o.get f).isSome)).map OrgField.tag := by
  intro fs
  induction fs with
  | nil =>
    intro ms h
    simp only [Organization.marshalFields, Except.ok.injEq] at h
    subst h
    rfl
  | cons f fs ih =>
    intro ms h
    unfold Organization.marshalFields at h
    cases hget : o.get f with
    | none =>
      rw [hget] at h
      simp only [List.filter_cons, hget, Option.isSome_none, Bool.false_eq_true, if_false]
      exact ih ms h
    | some x =>
      rw [hget] at h
      simp only at h
      cases henc : encodeValue tc f.type x with
      | error e => rw [henc] at h; cases h
      | ok j =>
        rw [henc] at h
        simp only at h
        cases hrest : Organization.marshalFields tc o fs with
        | error e => rw [hrest] at h; cases h
        | ok rest =>
          rw [hrest] at h
          simp only [Except.ok.injEq] at h
          subst h
          simp only [List.filter_cons, hget, Option.isSome_some, if_true, List.map_cons,
            ih rest hrest]

theorem marshalFields_mem (tc : TimeJSON Time E) (o : Organization Time) :
    ∀ (fs : List OrgField) (ms : List (String × JSON)),
      Organization.marshalFields tc o fs = Except.ok ms →
      ∀ f ∈ fs, ∀ x, o.get f = some x →
        ∃ v, encodeValue tc f.type x = Except.ok v ∧ (f.tag, v) ∈ ms := by
  intro fs
  induction fs with
  | nil => intro ms _ f hf; cases hf
  | cons g fs ih =>
    intro ms h f hf x hx
    unfold Organization.marshalFields at h
    cases hget : o.get g with
    | none =>
      rw [hget] at h
      rcases List.mem_cons.mp hf with rfl | hf
      · rw [hget] at hx; cases hx
      · exact ih ms h f hf x hx
    | some y =>
      rw [hget] at h
      simp only at h
      cases henc : encodeValue tc g.type y with
      | error e => rw [henc] at h; cases h
      | ok j =>
        rw [henc] at h
        simp only at h
        cases hrest : Organization.marshalFields tc o fs with
        | error e => rw [hrest] at h; cases h
        | ok rest =>
          rw [hrest] at h
          simp only [Except.ok.injEq] at h
          subst h
          rcases List.mem_cons.mp hf with rfl | hf
          · rw [hget] at hx
            cases hx
            exact ⟨j, henc, List.mem_cons_self _ _⟩
          · obtain ⟨v, hv, hmem⟩ := ih rest hrest f hf x hx
            exact ⟨v, hv, List.mem_cons_of_mem _ hmem⟩

theorem marshalFields_ok (tc : TimeJSON Time E) (o : Organization Time)
    (h : ∀ f x, o.get f = some x → ∃ v, encodeValue tc f.type x = Except.ok v) :
    ∀ fs : List OrgField, ∃ ms, Organization.marshalFields tc o fs = Except.ok ms := by
  intro fs
  induction fs with
  | nil => exact ⟨[], rfl⟩
  | cons f fs ih =>
    obtain ⟨rest, hrest⟩ := ih
    unfold Organization.marshalFields
    cases hget : o.get f with
    | none => exact ⟨rest, hrest⟩
    | some x =>
      obtain ⟨v, hv⟩ := h f x hget
      simp only [hv, hrest]
      exact ⟨_, rfl⟩

theorem encodeValue_ok (tc : TimeJSON Time E) (o : Organization Time)
    (hC : ∀ t, o.CreatedAt = some t → ∃ v, tc.MarshalJSON t = Except.ok v)
    (hU : ∀ t, o.UpdatedAt = some t → ∃ v, tc.MarshalJSON t = Except.ok v) :
    ∀ f x, o.get f = some x → ∃ v, encodeValue tc f.type x = Except.ok v := by
  intro f x hx
  cases f
  case CreatedAt => exact hC x hx
  case UpdatedAt => exact hU x hx
  all_goals exact ⟨_, rfl⟩

theorem Plan.members_keys (p : Plan) :
    p.members.map Prod.fst = (PlanField.all.filter p.has).map PlanField.tag := by
  rcases p with ⟨_ | a, _ | b, _ | c, _ | d⟩ <;> rfl

/-- C7: whenever `json.Marshal` of an `Organization` yields a JSON value, that value is
an object whose keys are exactly the tag names of the fields that are present (non-nil),
in declaration order, with no key for an absent field; every present field is written
under its tag with the encoding of its value, also when the value is 0 or the empty
string; a `Plan` is written the same way; and the encoding does yield a value whenever
`MarshalJSON` succeeds on the timestamps present. -/
theorem C7_Marshal_writes_present_fields (tc : TimeJSON Time E) (o : Organization Time) :
    (∀ j, Organization.Marshal tc o = Except.ok j →
      ∃ ms, j = JSON.obj ms
        ∧ ms.map Prod.fst =
            (OrgField.all.filter (fun f => (o.get f).isSome)).map OrgField.tag
        ∧ (∀ f : OrgField, f.tag ∈ ms.map Prod.fst ↔ (o.get f).isSome = true)
        ∧ (∀ (f : OrgField) (x : f.type.denote Time), o.get f = some x →
            ∃ v, encodeValue tc f.type x = Except.ok v ∧ (f.tag, v) ∈ ms))
    ∧ ((∀ t, o.CreatedAt = some t → ∃ v, tc.MarshalJSON t = Except.ok v) →
        (∀ t, o.UpdatedAt = some t → ∃ v, tc.MarshalJSON t = Except.ok v) →
        ∃ j, Organization.Marshal tc o = Except.ok j)
    ∧ encodeValue tc GoType.string "" = Except.ok (JSON.str "")
    ∧ encodeValue tc GoType.int GoInt.zero = Except.ok (JSON.int 0)
    ∧ (∀ p : Plan, encodeValue tc GoType.plan p = Except.ok (JSON.obj p.members)
        ∧ p.members.map Prod.fst = (PlanField.all.filter p.has).map PlanField.tag
        ∧ (∀ f : PlanField, f.tag ∈ p.members.map Prod.fst ↔ p.has f = true)) := by
  refine ⟨?_, ?_, rfl, rfl, ?_⟩
  · intro j hj
    unfold Organization.Marshal at hj
    cases hms : Organization.marshalFields tc o OrgField.all with
    | error e => rw [hms] at hj; cases hj
    | ok ms =>
      rw [hms] at hj
      simp only [Except.ok.injEq] at hj
      have hkeys := marshalFields_keys tc o OrgField.all ms hms
      refine ⟨ms, hj.symm, hkeys, ?_, ?_⟩
      · intro f
        rw [hkeys, List.mem_map]
        constructor
        · rintro ⟨g, hg, hgf⟩
          rw [← OrgField_tag_injective g f hgf]
          exact (List.mem_filter.mp hg).2
        · intro hf
          exact ⟨f, List.mem_filter.mpr ⟨OrgField.mem_all f, hf⟩, rfl⟩
      · intro f x hx
        exact marshalFields_mem tc o OrgField.all ms hms f (OrgField.mem_all f) x hx
  · intro hC hU
    obtain ⟨ms, hms⟩ := marshalFields_ok tc o (encodeValue_ok tc o hC hU) OrgField.all
    exact ⟨JSON.obj ms, by simp only [Organization.Marshal, hms]⟩
  · intro p
    refine ⟨rfl, Plan.members_keys p, ?_⟩
    intro f
    rw [Plan.members_keys, List.mem_map]
    constructor
    · rintro ⟨g, hg, hgf⟩
      rw [← PlanField_tag_injective g f hgf]
      exact (List.mem_filter.mp hg).2
    · intro hf
      exact ⟨f, List.mem_filter.mpr ⟨by cases f <;> simp [PlanField.all], hf⟩, rfl⟩

/-- C7 at an organization with an empty login, id 0 and an empty plan: the three present
fields are written, nothing else. -/
theorem C7_witness :
    ∃ ms, JSON.obj [("login", JSON.str ""), ("id", JSON.int 0), ("plan", JSON.obj [])] =
        JSON.obj ms
      ∧ ms.map Prod.fst =
          (OrgField.all.filter (fun f => (sampleOrg.get f).isSome)).map OrgField.tag
      ∧ (∀ f : OrgField, f.tag ∈ ms.map Prod.fst ↔ (sampleOrg.get f).isSome = true)
      ∧ (∀ (f : OrgField) (x : f.type.denote String), sampleOrg.get f = some x →
          ∃ v, encodeValue textTime f.type x = Except.ok v ∧ (f.tag, v) ∈ ms) :=
  (C7_Marshal_writes_present_fields textTime sampleOrg).1
    (JSON.obj [("login", JSON.str ""), ("id", JSON.int 0), ("plan", JSON.obj [])]) rfl

end Encoding

/-! ## Decoding what was encoded -/

section RoundTrip

variable {Time E : Type}

theorem decodeIntPtr_val (n : GoInt) (cur : Option GoInt) (st : DecodeState E) :
    decodeIntPtr (JSON.int n.val) cur st = (some n, st) := by
  simp [decodeIntPtr, n.2]

theorem Plan.decode_members (p : Plan) (st : DecodeState E) (hst : st.failed = none) :
    decodeMembers Plan.decodeMember p.members Plan.zero st = (p, st) := by
  rcases p with ⟨_ | a, _ | b, _ | c, _ | d⟩ <;>
    simp [Plan.members, decodeMembers, Plan.decodeMember, PlanField_byKey_tag,
      decodeStringPtr, decodeIntPtr_val, hst, Plan.zero]

theorem decodePtr_encodeValue (tc : TimeJSON Time E) (o : Organization Time)
    (hC : ∀ t, o.CreatedAt = some t → ∃ v, tc.MarshalJSON t = Except.ok v ∧ v ≠ JSON.null
      ∧ tc.UnmarshalJSON v tc.zero = (t, none))
    (hU : ∀ t, o.UpdatedAt = some t → ∃ v, tc.MarshalJSON t = Except.ok v ∧ v ≠ JSON.null
      ∧ tc.UnmarshalJSON v tc.zero = (t, none)) :
    ∀ (f : OrgField) (x : f.type.denote Time), o.get f = some x →
      ∃ j, encodeValue tc f.type x = Except.ok j
        ∧ ∀ st : DecodeState E, st.failed = none →
            decodePtr tc f.type j none st = (some x, st) := by
  have htime : ∀ (t : Time) (v : JSON), v ≠ JSON.null →
      tc.UnmarshalJSON v tc.zero = (t, none) →
      ∀ st : DecodeState E, decodeTimePtr tc v none st = (some t, st) := by
    intro t v hv hu st
    cases v <;> first | exact absurd rfl hv | simp [decodeTimePtr, hu]
  intro f x hx
  cases f
  case CreatedAt =>
    obtain ⟨v, hm, hv, hu⟩ := hC x hx
    exact ⟨v, hm, fun st _ => htime x v hv hu st⟩
  case UpdatedAt =>
    obtain ⟨v, hm, hv, hu⟩ := hU x hx
    exact ⟨v, hm, fun st _ => htime x v hv hu st⟩
  case Plan =>
    refine ⟨JSON.obj (Plan.members x), rfl, fun st hst => ?_⟩
    show decodePlanPtr (JSON.obj (Plan.members x)) none st = (some x, st)
    simp only [decodePlanPtr, Option.getD_none, Plan.decode_members x st hst]
  case ID | PublicRepos | PublicGists | Followers | Following | TotalPrivateRepos
      | OwnedPrivateRepos | PrivateGists | DiskUsage | Collaborators =>
    exact ⟨_, rfl, fun st _ => decodeIntPtr_val x none st⟩
  all_goals exact ⟨_, rfl, fun st _ => rfl⟩

theorem decode_marshalFields (tc : TimeJSON Time E) (o : Organization Time)
    (hrt : ∀ (f : OrgField) (x : f.type.denote Time), o.get f = some x →
      ∃ j, encodeValue tc f.type x = Except.ok j
        ∧ ∀ st : DecodeState E, st.failed = none →
            decodePtr tc f.type j none st = (some x, st)) :
    ∀ fs : List OrgField, fs.Nodup → ∀ (acc : Organization Time) (st : DecodeState E),
      st.failed = none → (∀ f ∈ fs, acc.get f = none) →
      ∃ ms, Organization.marshalFields tc o fs = Except.ok ms
        ∧ ∃ res, decodeMembers (Organization.decodeMember tc) ms acc st = (res, st)
          ∧ ∀ g, res.get g = if g ∈ fs then o.get g else acc.get g := by
  intro fs
  induction fs with
  | nil =>
    intro _ acc st _ _
    exact ⟨[], rfl, acc, rfl, fun g => by simp⟩
  | cons f fs ih =>
    intro hnd acc st hst hacc
    have hf : f ∉ fs := (List.nodup_cons.mp hnd).1
    have hnd2 : fs.Nodup := (List.nodup_cons.mp hnd).2
    unfold Organization.marshalFields
    cases hget : o.get f with
    | none =>
      obtain ⟨ms, hms, res, hres, hg⟩ :=
        ih hnd2 acc st hst (fun g hg => hacc g (List.mem_cons_of_mem _ hg))
      refine ⟨ms, hms, res, hres, fun g => ?_⟩
      rw [hg g]
      by_cases hgf : g = f
      · subst hgf
        simp [hf, hget, hacc g (List.mem_cons_self _ _)]
      · simp [hgf]
    | some x =>
      obtain ⟨j, hj, hdec⟩ := hrt f x hget
      have hacc2 : ∀ g ∈ fs, (acc.set f (some x)).get g = none := by
        intro g hg
        have hgf : g ≠ f := fun h => hf (h ▸ hg)
        rw [Organization.get_set_ne _ _ _ _ hgf]
        exact hacc g (List.mem_cons_of_mem _ hg)
      obtain ⟨ms, hms, res, hres, hg⟩ := ih hnd2 (acc.set f (some x)) st hst hacc2
      refine ⟨(f.tag, j) :: ms, by simp only [hj, hms], res, ?_, fun g => ?_⟩
      · have hstep : Organization.decodeMember tc acc f.tag j st =
            (acc.set f (some x), st) := by
          simp only [Organization.decodeMember, OrgField_byKey_tag,
            hacc f (List.mem_cons_self _ _), hdec st hst]
        simp only [decodeMembers, hstep, hst, Option.isSome_none, Bool.false_eq_true,
          if_false, hres]
      · rw [hg g]
        by_cases hgf : g = f
        · subst hgf
          simp [hf, hget, Organization.get_set_same]
        · simp [hgf, Organization.get_set_ne _ _ _ _ hgf]

/-- C9: for every `Organization` o, with any subset of its fields present and a nested
`Plan` with any subset of its fields present, whose present timestamps `time.Time`
writes as a JSON value that it reads back as the same timestamp, the encoding of o exists
and decoding it into a new `Organization` yields o, without error: every field present
in o is present with an equal value and every field absent in o is absent. -/
theorem C9_Unmarshal_Marshal_roundtrip (tc : TimeJSON Time E) (o : Organization Time)
    (hC : ∀ t, o.CreatedAt = some t → ∃ v, tc.MarshalJSON t = Except.ok v ∧ v ≠ JSON.null
      ∧ tc.UnmarshalJSON v tc.zero = (t, none))
    (hU : ∀ t, o.UpdatedAt = some t → ∃ v, tc.MarshalJSON t = Except.ok v ∧ v ≠ JSON.null
      ∧ tc.UnmarshalJSON v tc.zero = (t, none)) :
    ∃ j, Organization.Marshal tc o = Except.ok j
      ∧ UnmarshalOrganization tc j Organization.zero = (o, none) := by
  obtain ⟨ms, hms, res, hres, hg⟩ :=
    decode_marshalFields tc o (decodePtr_encodeValue tc o hC hU) OrgField.all
      OrgField.nodup_all Organization.zero {} rfl (fun f _ => Organization.zero_get f)
  refine ⟨JSON.obj ms, by simp only [Organization.Marshal, hms], ?_⟩
  have hres2 : res = o := by
    apply Organization_ext_get
    intro g
    rw [hg g]
    simp [OrgField.mem_all]
  subst hres2
  simp only [UnmarshalOrganization, Organization.decode, hres]
  rfl

/-- C9 at an organization with a timestamp and a plan, with timestamps kept as text. -/
theorem C9_witness :
    ∃ j, Organization.Marshal textTime octocatOrg = Except.ok j
      ∧ UnmarshalOrganization textTime j Organization.zero = (octocatOrg, none) :=
  C9_Unmarshal_Marshal_roundtrip textTime octocatOrg
    (fun t _ => ⟨JSON.str t, rfl, fun h => JSON.noConfusion h, rfl⟩)
    (fun t _ => ⟨JSON.str t, rfl, fun h => JSON.noConfusion h, rfl⟩)

end RoundTrip

/-! ## Decoding a well-formed response -/

section Decoding

variable {Time E : Type}

theorem find?_eq_none_of_not_mem {F : Type} [DecidableEq F] (key : String → Option F)
    (f : F) (ms : List (String × JSON))
    (h : f ∉ ms.filterMap (fun kv => key kv.1)) :
    ms.find? (fun kv => key kv.1 = some f) = none := by
  rw [List.find?_eq_none]
  intro kv hkv hk
  apply h
  rw [List.mem_filterMap]
  exact ⟨kv, hkv, by simpa using hk⟩

/-- Decoding the members of a well-formed object into a record whose fields named by
the object are still nil stores, in each field, the value of the member that names it,
and raises no error. -/
theorem decodeMembers_lookup {T F : Type} {V : F → Type} [DecidableEq F]
    (get : T → (f : F) → Option (V f)) (key : String → Option F)
    (val : (f : F) → JSON → Option (V f)) (good : F → JSON → Bool)
    (step : T → String → JSON → DecodeState E → T × DecodeState E)
    (hskip : ∀ t k v st, key k = none → step t k v st = (t, st))
    (hstore : ∀ t k v st f, key k = some f → good f v = true → get t f = none →
      st.failed = none →
      (step t k v st).2 = st ∧ get (step t k v st).1 f = val f v
        ∧ ∀ g, g ≠ f → get (step t k v st).1 g = get t g) :
    ∀ ms : List (String × JSON), (ms.filterMap (fun kv => key kv.1)).Nodup →
      (∀ kv ∈ ms, ∀ f, key kv.1 = some f → good f kv.2 = true) →
      ∀ (acc : T) (st : DecodeState E), st.failed = none →
        (∀ kv ∈ ms, ∀ f, key kv.1 = some f → get acc f = none) →
        (decodeMembers step ms acc st).2 = st
        ∧ ∀ g, get (decodeMembers step ms acc st).1 g =
            match ms.find? (fun kv => key kv.1 = some g) with
            | none => get acc g
            | some kv => val g kv.2 := by
  intro ms
  induction ms with
  | nil =>
    intro _ _ acc st _ _
    exact ⟨rfl, fun g => rfl⟩
  | cons kv rest ih =>
    obtain ⟨k, v⟩ := kv
    intro hnd hgood acc st hst hacc
    cases hk : key k with
    | none =>
      have hnd2 : (rest.filterMap (fun kv => key kv.1)).Nodup := by
        simpa [List.filterMap_cons, hk] using hnd
      have hstep := hskip acc k v st hk
      have hrec := ih hnd2 (fun kv h => hgood kv (List.mem_cons_of_mem _ h)) acc st hst
        (fun kv h => hacc kv (List.mem_cons_of_mem _ h))
      simp only [decodeMembers, hstep, hst, Option.isSome_none, Bool.false_eq_true, if_false]
      refine ⟨hrec.1, fun g => ?_⟩
      rw [hrec.2 g]
      simp [List.find?_cons, hk]
    | some f =>
      have hnd1 : (f :: rest.filterMap (fun kv => key kv.1)).Nodup := by
        simpa [List.filterMap_cons, hk] using hnd
      have hf : f ∉ rest.filterMap (fun kv => key kv.1) := (List.nodup_cons.mp hnd1).1
      have hnd2 := (List.nodup_cons.mp hnd1).2
      obtain ⟨hs2, hsf, hsg⟩ := hstore acc k v st f hk
        (hgood (k, v) (List.mem_cons_self _ _) f hk)
        (hacc (k, v) (List.mem_cons_self _ _) f hk) hst
      have hacc2 : ∀ kv ∈ rest, ∀ g, key kv.1 = some g → get (step acc k v st).1 g = none := by
        intro kv hkv g hg
        have hgf : g ≠ f := by
          intro h
          apply hf
          rw [List.mem_filterMap]
          exact ⟨kv, hkv, h ▸ hg⟩
        rw [hsg g hgf]
        exact hacc kv (List.mem_cons_of_mem _ hkv) g hg
      have hrec := ih hnd2 (fun kv h => hgood kv (List.mem_cons_of_mem _ h))
        (step acc k v st).1 st hst hacc2
      have hfail : (step acc k v st).2.failed.isSome = false := by rw [hs2, hst]; rfl
      have hunf : decodeMembers step ((k, v) :: rest) acc st =
          decodeMembers step rest (step acc k v st).1 st := by
        simp only [decodeMembers, hfail, Bool.false_eq_true, if_false, hs2, hst,
          Option.isSome_none]
      rw [hunf]
      refine ⟨hrec.1, fun g => ?_⟩
      rw [hrec.2 g]
      by_cases hgf : g = f
      · subst hgf
        rw [find?_eq_none_of_not_mem key g rest hf]
        simp [List.find?_cons, hk, hsf]
      · have hne : ¬ (some f = some g) := fun h => hgf (Option.some.inj h).symm
        simp only [List.find?_cons, hk, hne, decide_False]
        cases rest.find? (fun kv => decide (key kv.1 = some g)) with
        | none => exact hsg g hgf
        | some kv => rfl

theorem decodeStringPtr_good (v : JSON) (cur : Option String) (st : DecodeState E)
    (h : (v.isNull || (stringOf v).isSome) = true) :
    decodeStringPtr v cur st = (stringOf v, st) := by
  cases v <;> simp [JSON.isNull, stringOf] at h <;> rfl

theorem decodeIntPtr_good (v : JSON) (cur : Option GoInt) (st : DecodeState E)
    (h : (v.isNull || (intOf v).isSome) = true) :
    decodeIntPtr v cur st = (intOf v, st) := by
  cases v with
  | int n =>
    by_cases hn : minInt ≤ n ∧ n ≤ maxInt
    · simp [decodeIntPtr, intOf, hn]
    · simp [JSON.isNull, intOf, hn] at h
  | null => rfl
  | _ => simp [JSON.isNull, intOf] at h

theorem decodeTimePtr_good (tc : TimeJSON Time E) (v : JSON) (st : DecodeState E)
    (h : (v.isNull || (timeOf tc v).isSome) = true) :
    decodeTimePtr tc v none st = (timeOf tc v, st) := by
  cases v with
  | null => rfl
  | _ =>
    simp only [JSON.isNull, Bool.false_or, timeOf, Bool.false_eq_true, if_false] at h
    simp only [decodeTimePtr, timeOf, JSON.isNull, Bool.false_eq_true, if_false,
      Option.getD_none]
    generalize tc.UnmarshalJSON _ tc.zero = r at h
    obtain ⟨t, _ | e⟩ := r
    · rfl
    · simp at h

theorem Plan_ext_get (p q : Plan) (h : ∀ f, p.get f = q.get f) : p = q := by
  cases p
  cases q
  simp only [Plan.mk.injEq]
  exact ⟨h PlanField.Name, h PlanField.Space, h PlanField.Collaborators,
    h PlanField.PrivateRepos⟩

theorem Plan_decodeMember_skip (p : Plan) (k : String) (v : JSON) (st : DecodeState E)
    (hk : PlanField.byKey k = none) : Plan.decodeMember p k v st = (p, st) := by
  simp only [Plan.decodeMember, hk]

theorem Plan_decodeMember_store (p : Plan) (k : String) (v : JSON) (st : DecodeState E)
    (f : PlanField) (hk : PlanField.byKey k = some f)
    (hv : (v.isNull || (f.valueOf v).isSome) = true) :
    (Plan.decodeMember p k v st).2 = st
      ∧ (Plan.decodeMember p k v st).1.get f = f.valueOf v
      ∧ ∀ g, g ≠ f → (Plan.decodeMember p k v st).1.get g = p.get g := by
  cases f
  case Name =>
    have hstep : Plan.decodeMember p k v st = ({ p with Name := stringOf v }, st) := by
      simp only [Plan.decodeMember, hk, decodeStringPtr_good v p.Name st hv]
    rw [hstep]
    exact ⟨rfl, rfl, fun g hg => by cases g <;> first | rfl | exact absurd rfl hg⟩
  case Space =>
    have hstep : Plan.decodeMember p k v st = ({ p with Space := intOf v }, st) := by
      simp only [Plan.decodeMember, hk, decodeIntPtr_good v p.Space st hv]
    rw [hstep]
    exact ⟨rfl, rfl, fun g hg => by cases g <;> first | rfl | exact absurd rfl hg⟩
  case Collaborators =>
    have hstep : Plan.decodeMember p k v st = ({ p with Collaborators := intOf v }, st) := by
      simp only [Plan.decodeMember, hk, decodeIntPtr_good v p.Collaborators st hv]
    rw [hstep]
    exact ⟨rfl, rfl, fun g hg => by cases g <;> first | rfl | exact absurd rfl hg⟩
  case PrivateRepos =>
    have hstep : Plan.decodeMember p k v st = ({ p with PrivateRepos := intOf v }, st) := by
      simp only [Plan.decodeMember, hk, decodeIntPtr_good v p.PrivateRepos st hv]
    rw [hstep]
    exact ⟨rfl, rfl, fun g hg => by cases g <;> first | rfl | exact absurd rfl hg⟩

/-- Decoding a well-formed object into a new `Plan` gives the plan it stands for. -/
theorem Plan_decode_wellFormed (ms : List (String × JSON)) (st : DecodeState E)
    (hst : st.failed = none) (hwf : Plan.wellFormed ms = true) :
    decodeMembers Plan.decodeMember ms Plan.zero st = (Plan.ofMembers ms, st) := by
  simp only [Plan.wellFormed, Bool.and_eq_true, decide_eq_true_eq, List.all_eq_true] at hwf
  obtain ⟨hnd, hall⟩ := hwf
  have hgood : ∀ kv ∈ ms, ∀ f, PlanField.byKey kv.1 = some f →
      (kv.2.isNull || (f.valueOf kv.2).isSome) = true := by
    intro kv hkv f hf
    have := hall kv hkv
    rw [hf] at this
    exact this
  obtain ⟨h2, hget⟩ := decodeMembers_lookup Plan.get PlanField.byKey PlanField.valueOf
    (fun f v => v.isNull || (f.valueOf v).isSome) (@Plan.decodeMember E)
    (fun t k v st hk => Plan_decodeMember_skip t k v st hk)
    (fun t k v st f hk hv _ _ => Plan_decodeMember_store t k v st f hk hv)
    ms hnd hgood Plan.zero st hst (fun _ _ f _ => by cases f <;> rfl)
  have h1 : (decodeMembers Plan.decodeMember ms Plan.zero st).1 = Plan.ofMembers ms := by
    apply Plan_ext_get
    intro g
    rw [hget g]
    cases g <;> rfl
  exact Prod.ext h1 h2

theorem decodePtr_good (tc : TimeJSON Time E) (T : GoType) (v : JSON) (st : DecodeState E)
    (hst : st.failed = none) (h : (v.isNull || fits tc T v) = true) :
    decodePtr tc T v none st = (valueAs tc T v, st) := by
  cases T
  case string =>
    exact decodeStringPtr_good v none st (by simpa [fits, valueAs] using h)
  case int =>
    exact decodeIntPtr_good v none st (by simpa [fits, valueAs] using h)
  case time =>
    exact decodeTimePtr_good tc v st (by simpa [fits, valueAs] using h)
  case plan =>
    cases v with
    | null => rfl
    | obj ms =>
      have hwf : Plan.wellFormed ms = true := by
        simpa [fits, valueAs, planOf, JSON.isNull] using h
      show decodePlanPtr (JSON.obj ms) none st = (planOf (JSON.obj ms), st)
      simp only [decodePlanPtr, Option.getD_none, Plan_decode_wellFormed ms st hst hwf, planOf]
    | _ => simp [fits, valueAs, planOf, JSON.isNull] at h

theorem valueAs_null (tc : TimeJSON Time E) (T : GoType) (v : JSON) (h : v.isNull = true) :
    valueAs tc T v = none := by
  cases v with
  | null => cases T <;> rfl
  | _ => cases h

theorem valueAs_isSome (tc : TimeJSON Time E) (T : GoType) (v : JSON)
    (h : (v.isNull || fits tc T v) = true) (hv : v.isNull = false) :
    (valueAs tc T v).isSome = true := by
  rw [hv, Bool.false_or] at h
  simp only [fits, Bool.and_eq_true] at h
  exact h.1

theorem Organization_decodeMember_skip (tc : TimeJSON Time E) (o : Organization Time)
    (k : String) (v : JSON) (st : DecodeState E) (hk : OrgField.byKey k = none) :
    Organization.decodeMember tc o k v st = (o, st) := by
  simp only [Organization.decodeMember, hk]

theorem Organization_decodeMember_store (tc : TimeJSON Time E) (o : Organization Time)
    (k : String) (v : JSON) (st : DecodeState E) (f : OrgField)
    (hk : OrgField.byKey k = some f) (hv : (v.isNull || fits tc f.type v) = true)
    (ho : o.get f = none) (hst : st.failed = none) :
    (Organization.decodeMember tc o k v st).2 = st
      ∧ (Organization.decodeMember tc o k v st).1.get f = valueAs tc f.type v
      ∧ ∀ g, g ≠ f → (Organization.decodeMember tc o k v st).1.get g = o.get g := by
  have hstep : Organization.decodeMember tc o k v st =
      (o.set f (valueAs tc f.type v), st) := by
    simp only [Organization.decodeMember, hk, ho, decodePtr_good tc f.type v st hst hv]
  rw [hstep]
  exact ⟨rfl, Organization.get_set_same _ _ _,
    fun g hg => Organization.get_set_ne _ _ _ _ hg⟩

/-- Decoding a well-formed object into a new `Organization` gives the organization it
stands for, and raises no error. -/
theorem Organization_decode_wellFormed (tc : TimeJSON Time E) (ms : List (String × JSON))
    (st : DecodeState E) (hst : st.failed = none)
    (hwf : Organization.wellFormed tc ms = true) :
    Organization.decode tc (JSON.obj ms) Organization.zero st =
      (Organization.ofMembers tc ms, st) := by
  simp only [Organization.wellFormed, Bool.and_eq_true, decide_eq_true_eq,
    List.all_eq_true] at hwf
  obtain ⟨hnd, hall⟩ := hwf
  have hgood : ∀ kv ∈ ms, ∀ f, OrgField.byKey kv.1 = some f →
      (kv.2.isNull || fits tc f.type kv.2) = true := by
    intro kv hkv f hf
    have := hall kv hkv
    rw [hf] at this
    exact this
  obtain ⟨h2, hget⟩ := decodeMembers_lookup Organization.get OrgField.byKey
    (fun f v => valueAs tc f.type v) (fun f v => v.isNull || fits tc f.type v)
    (Organization.decodeMember tc)
    (fun t k v st hk => Organization_decodeMember_skip tc t k v st hk)
    (fun t k v st f hk hv ht hs => Organization_decodeMember_store tc t k v st f hk hv ht hs)
    ms hnd hgood Organization.zero st hst (fun _ _ f _ => Organization.zero_get f)
  have h1 : (decodeMembers (Organization.decodeMember tc) ms Organization.zero st).1 =
      Organization.ofMembers tc ms := by
    apply Organization_ext_get
    intro g
    rw [hget g]
    cases g <;> rfl
  exact Prod.ext h1 h2

theorem decodeElems_wellFormed (tc : TimeJSON Time E) :
    ∀ (objs : List (List (String × JSON))) (st : DecodeState E), st.failed = none →
      (∀ ms ∈ objs, Organization.wellFormed tc ms = true) →
      decodeElems tc (objs.map JSON.obj) st = (objs.map (Organization.ofMembers tc), st) := by
  intro objs
  induction objs with
  | nil => intro st _ _; rfl
  | cons ms rest ih =>
    intro st hst hwf
    have h1 := Organization_decode_wellFormed tc ms st hst (hwf ms (List.mem_cons_self _ _))
    have h2 := ih st hst (fun m hm => hwf m (List.mem_cons_of_mem _ hm))
    simp only [List.map_cons, decodeElems, h1, hst, Option.isSome_none, Bool.false_eq_true,
      if_false, h2]

/-- In an object whose keys name each field at most once, the member found for a field
is any member that names it. -/
theorem lookup_of_mem (f : OrgField) :
    ∀ ms : List (String × JSON),
      (ms.filterMap (fun kv => OrgField.byKey kv.1)).Nodup →
      ∀ kv ∈ ms, OrgField.byKey kv.1 = some f → f.lookup ms = some kv := by
  intro ms
  induction ms with
  | nil => intro _ kv hkv; cases hkv
  | cons hd rest ih =>
    intro hnd kv hkv hk
    by_cases hhd : OrgField.byKey hd.1 = some f
    · have hnd1 : (f :: rest.filterMap (fun kv => OrgField.byKey kv.1)).Nodup := by
        simpa [List.filterMap_cons, hhd] using hnd
      rcases List.mem_cons.mp hkv with rfl | hrest
      · simp [OrgField.lookup, List.find?_cons, hhd]
      · exfalso
        apply (List.nodup_cons.mp hnd1).1
        rw [List.mem_filterMap]
        exact ⟨kv, hrest, hk⟩
    · have hnd2 : (rest.filterMap (fun kv => OrgField.byKey kv.1)).Nodup := by
        cases hb : OrgField.byKey hd.1 with
        | none => simpa [List.filterMap_cons, hb] using hnd
        | some g =>
          have : (g :: rest.filterMap (fun kv => OrgField.byKey kv.1)).Nodup := by
            simpa [List.filterMap_cons, hb] using hnd
          exact (List.nodup_cons.mp this).2
      rcases List.mem_cons.mp hkv with rfl | hrest
      · exact absurd hk hhd
      · have := ih hnd2 kv hrest hk
        simp only [OrgField.lookup] at this ⊢
        simp only [List.find?_cons, hhd, decide_False, this]

theorem Organization.ofMembers_get (tc : TimeJSON Time E) (ms : List (String × JSON))
    (f : OrgField) : (Organization.ofMembers tc ms).get f = f.expected tc ms := by
  cases f <;> rfl

/-- What `List` returns against a stub that answers with a JSON value. -/
theorem List_stub (tc : TimeJSON Time E) (Response : Type) (resp : Response) (body : JSON)
    (user : String) (opt : Option ListOptions) :
    (OrganizationsService.List ⟨stubClient tc Response resp body⟩ user opt ()).1 =
      ((UnmarshalOrganizations tc body none).1, some resp,
        (UnmarshalOrganizations tc body none).2) := by
  rw [List_eq]
  rfl

/-- C8, amended: for every N and every JSON array of N objects returned as the response
body, in which no object names a field twice and every value bound to a field's key is
`null` or a JSON value of the field's type, `List` returns exactly N `Organization`
values, in the order of the array and without error; in the i-th one a field is present
exactly when the i-th object has a key for it (its tag, matched case-insensitively)
bound to a value other than `null`, and it then holds the matching value; a field whose
key is missing from the object is absent. -/
theorem C8_List_decodes_wellFormed_array (tc : TimeJSON Time E) (Response : Type)
    (resp : Response) (objs : List (List (String × JSON))) (user : String)
    (opt : Option ListOptions)
    (hwf : ∀ ms ∈ objs, Organization.wellFormed tc ms = true) :
    (OrganizationsService.List
        ⟨stubClient tc Response resp (JSON.arr (objs.map JSON.obj))⟩ user opt ()).1 =
      (some (objs.map (Organization.ofMembers tc)), some resp, none)
    ∧ (objs.map (Organization.ofMembers tc)).length = objs.length
    ∧ ∀ ms ∈ objs, ∀ f : OrgField,
        (((Organization.ofMembers tc ms).get f).isSome = true ↔
          ∃ kv ∈ ms, OrgField.byKey kv.1 = some f ∧ kv.2.isNull = false)
        ∧ (∀ kv ∈ ms, OrgField.byKey kv.1 = some f →
            (Organization.ofMembers tc ms).get f = valueAs tc f.type kv.2)
        ∧ (∀ v, (f.tag, v) ∈ ms →
            (Organization.ofMembers tc ms).get f = valueAs tc f.type v)
        ∧ ((∀ kv ∈ ms, OrgField.byKey kv.1 ≠ some f) →
            (Organization.ofMembers tc ms).get f = none) := by
  refine ⟨?_, List.length_map _ _, ?_⟩
  · rw [List_stub]
    simp only [UnmarshalOrganizations, decodeSlice,
      decodeElems_wellFormed tc objs {} rfl hwf]
    rfl
  · intro ms hms f
    have hw := hwf ms hms
    simp only [Organization.wellFormed, Bool.and_eq_true, decide_eq_true_eq,
      List.all_eq_true] at hw
    obtain ⟨hnd, hall⟩ := hw
    have hgood : ∀ kv ∈ ms, OrgField.byKey kv.1 = some f →
        (kv.2.isNull || fits tc f.type kv.2) = true := by
      intro kv hkv hf
      have := hall kv hkv
      rw [hf] at this
      exact this
    have hval : ∀ kv ∈ ms, OrgField.byKey kv.1 = some f →
        (Organization.ofMembers tc ms).get f = valueAs tc f.type kv.2 := by
      intro kv hkv hk
      rw [Organization.ofMembers_get, OrgField.expected, lookup_of_mem f ms hnd kv hkv hk]
    have hnone : (∀ kv ∈ ms, OrgField.byKey kv.1 ≠ some f) →
        (Organization.ofMembers tc ms).get f = none := by
      intro h
      have hl : f.lookup ms = none := by
        rw [OrgField.lookup, List.find?_eq_none]
        intro kv hkv hk
        exact h kv hkv (by simpa using hk)
      rw [Organization.ofMembers_get, OrgField.expected, hl]
    refine ⟨⟨?_, ?_⟩, hval, ?_, hnone⟩
    · intro hsome
      by_contra hno
      have hall2 : ∀ kv ∈ ms, OrgField.byKey kv.1 = some f → kv.2.isNull = true := by
        intro kv hkv hk
        by_contra hn
        exact hno ⟨kv, hkv, hk, by simpa using hn⟩
      by_cases hex : ∃ kv ∈ ms, OrgField.byKey kv.1 = some f
      · obtain ⟨kv, hkv, hk⟩ := hex
        rw [hval kv hkv hk, valueAs_null tc f.type kv.2 (hall2 kv hkv hk)] at hsome
        cases hsome
      · rw [hnone (fun kv hkv hk => hex ⟨kv, hkv, hk⟩)] at hsome
        cases hsome
    · rintro ⟨kv, hkv, hk, hn⟩
      rw [hval kv hkv hk]
      exact valueAs_isSome tc f.type kv.2 (hgood kv hkv hk) hn
    · intro v hv
      exact hval (f.tag, v) hv (OrgField_byKey_tag f)

/-- C8, amended, at a response of three objects: the second has a `null`, an upper-case
key, an unknown key and a plan, the third has no member. -/
theorem C8_witness :
    (OrganizationsService.List
        ⟨stubClient textTime Nat 200 (JSON.arr (sampleObjects.map JSON.obj))⟩ "" none ()).1 =
      (some (sampleObjects.map (Organization.ofMembers textTime)), some 200, none) :=
  (C8_List_decodes_wellFormed_array textTime Nat 200 sampleObjects "" none
    (by decide)).1

/-- C8 as stated fails at the response `[{"login":null}]`: the object has the key
"login", and the decoded organization has no Login. -/
theorem C8_counterexample : ¬ ListFollowsKeys textTime [[("login", JSON.null)]] := by
  rintro ⟨orgs, hlist, hfields⟩
  have hrun : (OrganizationsService.List
      ⟨stubClient textTime Unit () (JSON.arr ([[("login", JSON.null)]].map JSON.obj))⟩
      "" none ()).1.1 = some [Organization.zero] := by
    rfl
  rw [hrun] at hlist
  cases hlist
  cases hfields with
  | cons h _ =>
    have hL := (h OrgField.Login).mpr ⟨JSON.null, List.mem_cons_self _ _⟩
    cases hL

end Decoding



end github
